import Mathlib

/-!
# Verification of core sdrx components

A shallow embedding, in Lean 4, of the parts of the `sdrx` airband receiver
that its specification talks about:

* `src/crb.hpp` — the single-producer/single-consumer chunked ring buffer
  (`CRB`): acquire/commit write and read, the wrap-around logic and the
  FIFO discipline.
* `src/src/msd.hpp` — the multi-stage translating downsampler (`MSD`):
  delay lines, folded FIR output, the frequency-translating first-stage FIR,
  and the three decimation modes.
* `src/src/sdrx.cpp` — `parse_fq`, `verify_requested_bandwidth`,
  `channel_to_offset`, `get_audio_pos`.
* `src/rtl_dev.cpp` / `src/common_dev.hpp` — `RtlDev::setGain`,
  `RtlDev::start` and the tabulated tuner gain steps.
* `src/src/agc.hpp` — `AGC::adjust`.

Machine floats (`float`) are embedded as exact rationals `ℚ`; machine
unsigned arithmetic is embedded as `Nat` with explicit `% 2^32` where the
C++ code can actually wrap.  Complex IQ samples (`std::complex<float>`,
`iqsample_t`) are embedded as pairs of rationals with complex arithmetic
spelled out.
-/

/-! ## Chunked ring buffer (`src/crb.hpp`)

The state of a `CRB<T, M>`.  One slot of `slots` stands for one `Chunk`,
i.e. the chunk's sample buffer `buf_` together with its metadata block `m_`
(both live in the same `chunks_[i]` and are always handed out together), so
the element type `α` abstracts the pair (T-buffer, M).  `slots.length` is
`capacity_ = num_chunks + 1` (the constructor allocates one sentinel slot).
-/

structure CRBState (α : Type) where
  slots : List α
  writePtr : Nat
  readPtr : Nat
  endPtr : Nat
  acquiredWritePtr : Nat
  acquiredWriteLen : Nat
  acquiredEndPtr : Nat
  acquiredReadPtr : Nat
  acquiredReadLen : Nat
  deriving Repr, DecidableEq

namespace CRB

/-- The freshly constructed buffer: `write_ptr_ = read_ptr_ = 0`,
`end_ptr_ = num_chunks`, `capacity_ = num_chunks + 1`, no acquired
write or read.  The C++ constructor leaves `acquired_write_ptr_`,
`acquired_end_ptr_` and `acquired_read_ptr_` uninitialized; every successful
`commitWrite`/`commitRead` is preceded by a successful acquire that has
assigned them (the first successful `acquireWrite` always happens with
`write_ptr_ >= read_ptr_` and assigns `acquired_end_ptr_`), so the initial
values chosen here are never observable.  `d` is the initial (zeroed)
content of each chunk buffer. -/
def init (d : α) (numChunks : Nat) : CRBState α where
  slots := List.replicate (numChunks + 1) d
  writePtr := 0
  readPtr := 0
  endPtr := numChunks
  acquiredWritePtr := 0
  acquiredWriteLen := 0
  acquiredEndPtr := numChunks
  acquiredReadPtr := 0
  acquiredReadLen := 0

/-- `CRB::acquireWrite`.  Returns whether a chunk slot was acquired, and the
updated state; on success the writer receives pointers into
`chunks_[acquired_write_ptr_]`. -/
def acquireWrite (s : CRBState α) : Bool × CRBState α :=
  let cap := s.slots.length
  let rd := s.readPtr
  let wr := s.writePtr
  if rd ≤ wr then
    -- State 1 (write leads read): write up to, but not including, capacity_
    if wr + 1 < cap then
      (true, { s with acquiredWritePtr := wr, acquiredWriteLen := 1,
                      acquiredEndPtr := cap - 1 })
    else if 1 < rd then
      -- wrap around to the beginning of the buffer
      (true, { s with acquiredWritePtr := 0, acquiredWriteLen := 1,
                      acquiredEndPtr := wr })
    else
      (false, { s with acquiredWriteLen := 0 })
  else
    -- State 2 (read leads write): write up to, but not including, read_ptr_
    if wr + 1 < rd then
      (true, { s with acquiredWritePtr := wr, acquiredWriteLen := 1 })
    else
      (false, { s with acquiredWriteLen := 0 })

/-- `CRB::commitWrite`.  The writer fills the acquired chunk through the
pointer returned by `acquireWrite` before committing; `v` is the content
(chunk data plus metadata) it wrote there.  A commit with no pending
acquired write fails and changes nothing. -/
def commitWrite (v : α) (s : CRBState α) : Bool × CRBState α :=
  if s.acquiredWriteLen = 0 then (false, s)
  else
    (true, { s with slots := s.slots.set s.acquiredWritePtr v,
                    endPtr := s.acquiredEndPtr,
                    acquiredWriteLen := 0,
                    writePtr := s.acquiredWritePtr + 1 })

/-- `CRB::acquireRead`.  Sets `acquired_read_ptr_`/`acquired_read_len_` as
the C++ code does in all branches, then reports success iff the computed
length is nonzero. -/
def acquireRead (s : CRBState α) : Bool × CRBState α :=
  let wr := s.writePtr
  let rd := s.readPtr
  let s' :=
    if rd ≤ wr then
      -- State 1: read up to, but not including, write_ptr_
      { s with acquiredReadPtr := rd, acquiredReadLen := wr - rd }
    else if rd < s.endPtr then
      -- State 2: read up to, but not including, end_ptr_
      { s with acquiredReadPtr := rd, acquiredReadLen := s.endPtr - rd }
    else
      -- State 2, wrap around
      { s with acquiredReadPtr := 0, acquiredReadLen := wr }
  (s'.acquiredReadLen ≠ 0, s')

/-- The chunk (buffer and metadata) a successful `acquireRead` hands to the
reader: `chunks_[acquired_read_ptr_]`. -/
def readView (s : CRBState α) : Option α :=
  s.slots[s.acquiredReadPtr]?

/-- `CRB::commitRead`.  A commit with no pending acquired read fails and
changes nothing. -/
def commitRead (s : CRBState α) : Bool × CRBState α :=
  if s.acquiredReadLen = 0 then (false, s)
  else
    (true, { s with acquiredReadLen := 0, readPtr := s.acquiredReadPtr + 1 })

end CRB

/-! Concrete trace for the CRB(chunk_size = 512, num_chunks = 3) scenario.
The chunk payload is abstracted by a `Nat` (the `chunk_size` only sizes the
allocation inside one slot and does not influence the protocol). -/

/-- One writer round: `acquireWrite` followed by `commitWrite v`. -/
def crbWriteRound (v : Nat) (s : CRBState Nat) : CRBState Nat :=
  (CRB.commitWrite v (CRB.acquireWrite s).2).2

/-- One reader round: `acquireRead` followed by `commitRead`. -/
def crbReadRound (s : CRBState Nat) : CRBState Nat :=
  (CRB.commitRead (CRB.acquireRead s).2).2

/-- The state after the writer has committed three chunks back-to-back into
a fresh `CRB(512, 3)`. -/
def crbFull3 : CRBState Nat :=
  crbWriteRound 3 (crbWriteRound 2 (crbWriteRound 1 (CRB.init 0 3)))

/-- C1 (counterexample): in the scenario of the claim — `CRB(512, 3)`, the
writer commits three chunks, the fourth `acquireWrite` fails — a *single*
successful `commitRead` is not enough to make `acquireWrite` succeed again:
after one full read round the next `acquireWrite` still returns false
(the wrap-around branch requires `1 < read_ptr_`, i.e. two committed
reads). -/
theorem crb_c1_counterexample :
    (CRB.acquireWrite crbFull3).1 = false ∧
    (CRB.commitRead (CRB.acquireRead crbFull3).2).1 = true ∧
    (CRB.acquireWrite (crbReadRound crbFull3)).1 = false := by
  decide

/-- C1 (amended): for `CRB(chunk_size = 512, num_chunks = 3)` starting
empty, the first three `acquireWrite`/`commitWrite` pairs succeed and the
4th `acquireWrite` returns false (buffer full); `acquireWrite` keeps
returning false until the reader has committed *two* reads: after a single
successful `commitRead` the next `acquireWrite` still fails, and after a
second successful `commitRead` it succeeds again. -/
theorem crb_c1_amended :
    ((CRB.acquireWrite (CRB.init 0 3)).1 = true ∧
     (CRB.acquireWrite (crbWriteRound 1 (CRB.init 0 3))).1 = true ∧
     (CRB.acquireWrite (crbWriteRound 2 (crbWriteRound 1 (CRB.init 0 3)))).1 = true) ∧
    (CRB.acquireWrite crbFull3).1 = false ∧
    ((CRB.commitRead (CRB.acquireRead crbFull3).2).1 = true ∧
     (CRB.acquireWrite (crbReadRound crbFull3)).1 = false) ∧
    ((CRB.commitRead (CRB.acquireRead (crbReadRound crbFull3)).2).1 = true ∧
     (CRB.acquireWrite (crbReadRound (crbReadRound crbFull3))).1 = true) := by
  decide

/-! ## RTL device (`src/rtl_dev.cpp`, `src/common_dev.hpp`, `src/src/r820_dev.hpp`) -/

/-- `R820Dev::ReturnValue`. -/
inductive ReturnValue where
  | OK
  | ERROR
  | DEVICE_NOT_FOUND
  | UNABLE_TO_OPEN_DEVICE
  | INVALID_SAMPLE_RATE
  | INVALID_FQ
  | INVALID_GAIN
  | INVALID_SERIAL
  | ALREADY_STARTED
  | ALREADY_STOPPED
  deriving Repr, DecidableEq

/-- `R820Dev::State` (states for the device manager). -/
inductive DevState where
  | IDLE
  | STARTING
  | RUNNING
  | RESTARTING
  | STOPPING
  deriving Repr, DecidableEq

/-- `SampleRate` from `rates.hpp` / `common_dev.hpp`. -/
inductive SampleRate where
  | FS00960
  | FS01200
  | FS01440
  | FS01600
  | FS01920
  | FS02400
  | FS02500
  | FS02560
  | FS03000
  | FS06000
  | FS10000
  | UNSPECIFIED
  deriving Repr, DecidableEq

/-- `sample_rate_to_uint`. -/
def sample_rate_to_uint : SampleRate → Nat
  | .FS00960 => 960000
  | .FS01200 => 1200000
  | .FS01440 => 1440000
  | .FS01600 => 1600000
  | .FS01920 => 1920000
  | .FS02400 => 2400000
  | .FS02500 => 2500000
  | .FS02560 => 2560000
  | .FS03000 => 3000000
  | .FS06000 => 6000000
  | .FS10000 => 10000000
  | .UNSPECIFIED => 0

/-- Sample rates supported by a RTL dongle (`get_sample_rates` in
`rtl_dev.cpp`; fixed, independent of the serial). -/
def rtlSampleRates : List SampleRate :=
  [.FS00960, .FS01200, .FS01440, .FS01600, .FS01920, .FS02400, .FS02560]

/-- `lna_gain_steps` from `common_dev.hpp` (index = register value). -/
def lna_gain_steps : List ℚ :=
  [0.0, 0.9, 1.3, 4.0, 3.8, 1.3, 3.1, 2.2, 2.6, 3.1, 2.6, 1.4, 1.9, 0.5, 3.5, 1.3]

/-- `mix_gain_steps` from `common_dev.hpp` (index = register value). -/
def mix_gain_steps : List ℚ :=
  [0.0, 0.5, 1.0, 1.0, 1.9, 0.9, 1.0, 2.5, 1.7, 1.0, 0.8, 1.6, 1.3, 0.6, 0.3, -0.8]

/-- The mutable fields of `RtlDev` that `start` and `setGain` touch.
`running` is `run_`; device I/O (`rtlsdr_*` calls, only reached while the
worker is `RUNNING` with an open handle) is outside the model, as is the
worker thread itself: `start`'s model reports whether a worker thread was
spawned as its third component. -/
structure RtlDevState where
  running : Bool
  state : DevState
  fs : SampleRate
  fq : Nat
  gain : ℚ
  lnaGainIdx : Nat
  mixGainIdx : Nat
  vgaGainIdx : Nat
  deriving Repr, DecidableEq

namespace RtlDev

/-- `RtlDev::start` (the synchronous part): already started ⇒
`ALREADY_STARTED` and nothing else happens; unsupported rate ⇒
`INVALID_SAMPLE_RATE`; otherwise the state machine moves to `STARTING`,
`run_` becomes true and the worker thread is spawned (third component). -/
def start (s : RtlDevState) : ReturnValue × RtlDevState × Bool :=
  if s.running then (ReturnValue.ALREADY_STARTED, s, false)
  else if s.fs ∈ rtlSampleRates then
    (ReturnValue.OK, { s with state := DevState.STARTING, running := true }, true)
  else (ReturnValue.INVALID_SAMPLE_RATE, s, false)

/-- The gain accumulation loop of `RtlDev::setGain`:
`for (i = 0; i < 15; i++) { if (tmp >= g) break; tmp += lna[++lna_idx];
if (tmp >= g) break; tmp += mix[++mix_idx]; }`.  `fuel` is the number of
remaining loop rounds. -/
def setGainLoop (g : ℚ) : Nat → ℚ → Nat → Nat → Nat × Nat
  | 0, _, lna, mix => (lna, mix)
  | fuel + 1, tmp, lna, mix =>
    if g ≤ tmp then (lna, mix)
    else
      let tmp1 := tmp + lna_gain_steps.getD (lna + 1) 0
      if g ≤ tmp1 then (lna + 1, mix)
      else
        setGainLoop g fuel (tmp1 + mix_gain_steps.getD (mix + 1) 0) (lna + 1) (mix + 1)

/-- `RtlDev::setGain`.  Gain outside `[MIN_GAIN, MAX_GAIN] = [0, 50]` is
rejected with `INVALID_GAIN` before anything is cached; otherwise the loop
above chooses the LNA/MIX indices, the VGA index is fixed to 12, and all
of them (plus the requested composite gain) are cached. -/
def setGain (g : ℚ) (s : RtlDevState) : ReturnValue × RtlDevState :=
  if g < 0 ∨ 50 < g then (ReturnValue.INVALID_GAIN, s)
  else
    let p := setGainLoop g 15 0 0 0
    (ReturnValue.OK,
     { s with gain := g, lnaGainIdx := p.1, mixGainIdx := p.2, vgaGainIdx := 12 })

end RtlDev

/-- Index of the first entry of a list that reaches (is ≥) `g`; length of
the list when none does. -/
def firstIdxGe (g : ℚ) : List ℚ → Nat
  | [] => 0
  | c :: cs => if g ≤ c then 0 else firstIdxGe g cs + 1

/-- The sequence of accumulated-gain checkpoints the `setGain` loop tests,
starting from LNA index `lna`, MIX index `mix` and accumulated value `tmp`
with `fuel` rounds to go: the value at each round start and the value after
each LNA step (two checkpoints per round, alternating LNA and MIX
accumulation, LNA first). -/
def altCums : Nat → Nat → Nat → ℚ → List ℚ
  | 0, _, _, _ => []
  | fuel + 1, lna, mix, tmp =>
    let tmp1 := tmp + lna_gain_steps.getD (lna + 1) 0
    tmp :: tmp1 :: altCums fuel (lna + 1) (mix + 1) (tmp1 + mix_gain_steps.getD (mix + 1) 0)

/-- The thirty checkpoints of a full 15-round `setGain` loop starting
from zero. -/
def gainCheckpoints : List ℚ := altCums 15 0 0 0

/-- The `setGain` loop stops at the first checkpoint that reaches the
requested gain (or after 15 full rounds), and the chosen indices are the
number of LNA resp. MIX steps accumulated up to that checkpoint. -/
theorem setGainLoop_char (g : ℚ) :
    ∀ (fuel lna mix : Nat) (tmp : ℚ),
      RtlDev.setGainLoop g fuel tmp lna mix =
        (lna + (min (firstIdxGe g (altCums fuel lna mix tmp)) (2 * fuel) + 1) / 2,
         mix + min (firstIdxGe g (altCums fuel lna mix tmp)) (2 * fuel) / 2) := by
  intro fuel
  induction fuel with
  | zero => intro lna mix tmp; simp [RtlDev.setGainLoop, altCums, firstIdxGe]
  | succ n ih =>
    intro lna mix tmp
    simp only [RtlDev.setGainLoop, altCums, firstIdxGe]
    split_ifs with h1 h2
    · simp
    · refine Prod.ext ?_ ?_ <;> simp <;> omega
    · rw [ih]
      refine Prod.ext ?_ ?_ <;> simp <;> omega

/-- A started RTL device (worker running), with the documented default
frequency, gain and gain indices. -/
def rtlStartedDev : RtlDevState where
  running := true
  state := DevState.RUNNING
  fs := SampleRate.FS01200
  fq := 100000000
  gain := 30
  lnaGainIdx := 9
  mixGainIdx := 8
  vgaGainIdx := 12

/-- C7: for composite gain `g ∈ [0, 50]` dB, `setGain` returns `OK`, fixes
the VGA index to 12, caches `g`, and chooses the LNA/MIX indices greedily:
it stops at the first checkpoint of the alternating accumulation of the
tabulated LNA and MIX step values (LNA first, at most 15 rounds,
`gainCheckpoints`) that reaches `g`, taking that many LNA resp. MIX steps;
both indices stay ≤ 15.  For `g` outside `[0, 50]` it returns
`INVALID_GAIN` and leaves the cached gain indices (and everything else)
unchanged. -/
theorem rtl_setGain_greedy (g : ℚ) (s : RtlDevState) :
    (0 ≤ g → g ≤ 50 →
      RtlDev.setGain g s =
        (ReturnValue.OK,
         { s with gain := g,
                  lnaGainIdx := (min (firstIdxGe g gainCheckpoints) 30 + 1) / 2,
                  mixGainIdx := min (firstIdxGe g gainCheckpoints) 30 / 2,
                  vgaGainIdx := 12 }) ∧
      (RtlDev.setGain g s).2.lnaGainIdx ≤ 15 ∧
      (RtlDev.setGain g s).2.mixGainIdx ≤ 15) ∧
    (g < 0 ∨ 50 < g → RtlDev.setGain g s = (ReturnValue.INVALID_GAIN, s)) := by
  constructor
  · intro h0 h50
    have hc : ¬ (g < 0 ∨ 50 < g) := by rintro (h | h) <;> linarith
    simp only [RtlDev.setGain, if_neg hc, setGainLoop_char g 15, gainCheckpoints]
    refine ⟨by norm_num, by omega, by omega⟩
  · intro hc
    simp only [RtlDev.setGain, if_pos hc]

/-- Witness for C7 at `g = 30` dB: the greedy accumulation stops at
checkpoint 17 (32.8 dB), i.e. 9 LNA steps and 8 MIX steps — exactly the
"30dB-ish" default indices `9, 8, 12` documented in `rtl_dev.cpp`. -/
theorem rtl_setGain_greedy_witness :
    RtlDev.setGain 30 rtlStartedDev =
      (ReturnValue.OK,
       { rtlStartedDev with gain := 30, lnaGainIdx := 9, mixGainIdx := 8,
                            vgaGainIdx := 12 }) := by
  have h := ((rtl_setGain_greedy 30 rtlStartedDev).1 (by norm_num) (by norm_num)).1
  rw [h]
  norm_num [gainCheckpoints, altCums, firstIdxGe, lna_gain_steps, mix_gain_steps]

/-- C9: out-of-protocol calls return a typed error and leave the state
unchanged.  `commitWrite` with no pending successful `acquireWrite` returns
false and modifies nothing (in particular neither `write_ptr_` nor
`end_ptr_`); `commitRead` with no pending successful `acquireRead` returns
false and modifies nothing (in particular not `read_ptr_`); `RtlDev::start`
on a device that is already started returns `ALREADY_STARTED`, changes
nothing and spawns no worker thread. -/
theorem out_of_protocol_calls_are_safe :
    (∀ (α : Type) (s : CRBState α) (v : α), s.acquiredWriteLen = 0 →
      CRB.commitWrite v s = (false, s)) ∧
    (∀ (α : Type) (s : CRBState α), s.acquiredReadLen = 0 →
      CRB.commitRead s = (false, s)) ∧
    (∀ d : RtlDevState, d.running = true →
      RtlDev.start d = (ReturnValue.ALREADY_STARTED, d, false)) := by
  refine ⟨fun α s v h => ?_, fun α s h => ?_, fun d h => ?_⟩
  · simp [CRB.commitWrite, h]
  · simp [CRB.commitRead, h]
  · simp [RtlDev.start, h]

/-- Witness for C9: a freshly constructed `CRB(512, 3)` has no pending
acquired write or read, so both commits fail there without any state
change, and `start` on the already-running device `rtlStartedDev` returns
`ALREADY_STARTED` without spawning a worker. -/
theorem out_of_protocol_calls_are_safe_witness :
    CRB.commitWrite (5 : Nat) (CRB.init 0 3) = (false, CRB.init 0 3) ∧
    CRB.commitRead (CRB.init (0 : Nat) 3) = (false, CRB.init 0 3) ∧
    RtlDev.start rtlStartedDev = (ReturnValue.ALREADY_STARTED, rtlStartedDev, false) :=
  ⟨out_of_protocol_calls_are_safe.1 Nat (CRB.init 0 3) 5 rfl,
   out_of_protocol_calls_are_safe.2.1 Nat (CRB.init 0 3) rfl,
   out_of_protocol_calls_are_safe.2.2 rtlStartedDev rfl⟩

/-! ## Audio positioning (`get_audio_pos` in `src/src/sdrx.cpp`)

The C++ code computes `tmp = (float)(i·5)/(float)M` and `floorf(tmp)`; for
the natural numbers involved this is exactly truncating division, embedded
here as `Nat` division.  `num_positions = 5` and `num_positions/2 = 2` are
inlined; the `odd` flag is `num_channels % 2 = 1`. -/

/-- `get_audio_pos(channel_no, num_channels)`. -/
def get_audio_pos (channel_no num_channels : Nat) : Int :=
  if channel_no < num_channels then
    if channel_no < num_channels / 2 then
      ((channel_no * 5 / num_channels : Nat) : Int) - 2
    else if channel_no = num_channels / 2 ∧ num_channels % 2 = 1 then 0
    else 2 - ((num_channels - 1 - channel_no) * 5 / num_channels : Nat)
  else 0

/-- C8 (counterexample): for `M = 2` the assigned positions are `{-2, +2}`,
which is *not* a contiguous subset of `{-2..+2}`: both endpoints are
assigned but `0` is not. -/
theorem get_audio_pos_counterexample :
    get_audio_pos 0 2 = -2 ∧ get_audio_pos 1 2 = 2 ∧
    ∀ i, i < 2 → get_audio_pos i 2 ≠ 0 := by
  decide

/-- C8 (amended): for every `M ≥ 1` and channel index `i < M`, the audio
position follows the deterministic scheme of the claim
(`⌊i·5/M⌋ - 2` below the middle, `0` at the middle of an odd `M`, mirrored
above), and the assigned values form a *symmetric* subset of `{-2..+2}`
(`pos(M-1-i) = -pos(i)` and `-2 ≤ pos(i) ≤ 2`) — but not necessarily a
contiguous one. -/
theorem get_audio_pos_amended (M : Nat) (hM : 1 ≤ M) (i : Nat) (hi : i < M) :
    (get_audio_pos i M =
      if i < M / 2 then ((i * 5 / M : Nat) : Int) - 2
      else if i = M / 2 ∧ M % 2 = 1 then 0
      else 2 - ((M - 1 - i) * 5 / M : Nat)) ∧
    (-2 ≤ get_audio_pos i M ∧ get_audio_pos i M ≤ 2) ∧
    get_audio_pos (M - 1 - i) M = - get_audio_pos i M := by
  have hM0 : 0 < M := hM
  refine ⟨by simp only [get_audio_pos, if_pos hi], ?_, ?_⟩
  · -- bounds
    by_cases h1 : i < M / 2
    · have h5 : i * 5 < 3 * M := by omega
      have hq : i * 5 / M < 3 := (Nat.div_lt_iff_lt_mul hM0).2 (by linarith)
      have hq2 : ((i * 5 / M : Nat) : Int) ≤ 2 := by exact_mod_cast Nat.lt_succ_iff.mp hq
      have hq0 : (0 : Int) ≤ ((i * 5 / M : Nat) : Int) := Int.ofNat_nonneg _
      simp only [get_audio_pos, if_pos hi, if_pos h1]
      constructor <;> linarith
    · by_cases h2 : i = M / 2 ∧ M % 2 = 1
      · simp only [get_audio_pos, if_pos hi, if_neg h1, if_pos h2]
        norm_num
      · have h5 : (M - 1 - i) * 5 < 3 * M := by omega
        have hq : (M - 1 - i) * 5 / M < 3 := (Nat.div_lt_iff_lt_mul hM0).2 (by linarith)
        have hq2 : (((M - 1 - i) * 5 / M : Nat) : Int) ≤ 2 := by
          exact_mod_cast Nat.lt_succ_iff.mp hq
        have hq0 : (0 : Int) ≤ (((M - 1 - i) * 5 / M : Nat) : Int) := Int.ofNat_nonneg _
        simp only [get_audio_pos, if_pos hi, if_neg h1, if_neg h2]
        constructor <;> linarith
  · -- symmetry
    have hj : M - 1 - i < M := by omega
    by_cases h1 : i < M / 2
    · have hj1 : ¬ (M - 1 - i < M / 2) := by omega
      have hj2 : ¬ (M - 1 - i = M / 2 ∧ M % 2 = 1) := by omega
      have hkey : M - 1 - (M - 1 - i) = i := by omega
      simp only [get_audio_pos, if_pos hi, if_pos hj, if_pos h1, if_neg hj1, if_neg hj2, hkey]
      ring
    · by_cases h2 : i = M / 2 ∧ M % 2 = 1
      · have hj1 : ¬ (M - 1 - i < M / 2) := by omega
        have hj2 : M - 1 - i = M / 2 ∧ M % 2 = 1 := by omega
        simp only [get_audio_pos, if_pos hi, if_pos hj, if_neg h1, if_pos h2, if_neg hj1,
          if_pos hj2]
        norm_num
      · have hj1 : M - 1 - i < M / 2 := by omega
        simp only [get_audio_pos, if_pos hi, if_pos hj, if_neg h1, if_neg h2, if_pos hj1]
        ring

/-- Witness for C8 at `M = 5`, `i = 0`: position `-2`, mirrored to `+2` at
`i = 4`. -/
theorem get_audio_pos_amended_witness :
    (1 ≤ 5 ∧ 0 < 5) ∧
    (-2 ≤ get_audio_pos 0 5 ∧ get_audio_pos 0 5 ≤ 2) ∧
    get_audio_pos 4 5 = - get_audio_pos 0 5 := by
  have h := get_audio_pos_amended 5 (by norm_num) 0 (by norm_num)
  exact ⟨⟨by norm_num, by norm_num⟩, h.2.1, h.2.2⟩

/-! ## Frequency parsing and the bandwidth check (`src/src/sdrx.cpp`)

Channel names (`std::string`) are embedded as `List Char`; the
lexicographic `std::string::operator<` used by `std::sort` over `Channel`
is the lexicographic order on `List Char`, and `std::sort` itself is
embedded as insertion sort (any comparison sort produces the same
`Sorted`/`Perm` result up to ties between equal names, and equal names parse
to equal frequencies).  `uint32_t` arithmetic is `Nat` with explicit
`% 2^32` where the C++ expression can wrap. -/

/-- `std::string::find_first_of(c)` followed by the two `substr` calls:
split a string at the first occurrence of `c`; `none` when `c` does not
occur. -/
def splitFirst (c : Char) : List Char → Option (List Char × List Char)
  | [] => none
  | x :: xs =>
    if x = c then some ([], xs)
    else (splitFirst c xs).map (fun p => (x :: p.1, p.2))

/-- `std::atol` on the digit strings involved (the callers either validate
the digits first, as `parse_fq` does, or pass channel names already
validated by `parse_fq`): plain decimal value. -/
def digitsToNat (s : List Char) : Nat :=
  s.foldl (fun acc c => acc * 10 + (c.toNat - 48)) 0

/-- `std::map::find` on the embedded two-digit sub-channel tables. -/
def assocFind (k : List Char) : List (List Char × Nat) → Option Nat
  | [] => none
  | (k', v) :: rest => if k = k' then some v else assocFind k rest

/-- The aeronautical sub-channel table of `parse_fq`: the last two digits of
the fractional part ↦ offset in Hz inside the 100 kHz band. -/
def subChannelHz : List (List Char × Nat) :=
  [(['0','0'], 0), (['0','5'], 0), (['1','0'], 8333), (['1','5'], 16667),
   (['2','5'], 25000), (['3','0'], 25000), (['3','5'], 33333), (['4','0'], 41667),
   (['5','0'], 50000), (['5','5'], 50000), (['6','0'], 58333), (['6','5'], 66667),
   (['7','5'], 75000), (['8','0'], 75000), (['8','5'], 83333), (['9','0'], 91667)]

/-- The (MHz, Hz) pair computed by the aeronautical branch of `parse_fq`:
sub-channel lookup on the last two fractional digits; both components stay
0 when the two digits are not a valid channel ending. -/
def aeroMhzHz (intStr fracStr : List Char) : Nat × Nat :=
  match assocFind (fracStr.drop 1) subChannelHz with
  | some sub => (digitsToNat intStr, ((fracStr.headD '0').toNat - 48) * 100000 + sub)
  | none => (0, 0)

/-- The Hz value computed by the plain-frequency branch of `parse_fq`:
fractional digits scaled by `{100000, 10000, 1000, 100, 10, 1}`. -/
def fracHz (fracStr : List Char) : Nat :=
  (fracStr.zip [100000, 10000, 1000, 100, 10, 1]).foldl
    (fun acc p => acc + (p.1.toNat - 48) * p.2) 0

/-- `parse_fq(str, aeronautical)`: parse "MHz.frac" into Hz; 0 on any
validation failure (and when `mhz ≥ 4000`). -/
def parse_fq (s : List Char) (aeronautical : Bool) : Nat :=
  match splitFirst '.' s with
  | none => 0
  | some (intStr, fracStr) =>
    if ¬ intStr.all Char.isDigit ∨ ¬ fracStr.all Char.isDigit ∨
        intStr.length < 2 ∨ 4 < intStr.length ∨
        fracStr.length = 0 ∨ 6 < fracStr.length then 0
    else if aeronautical ∧ fracStr.length ≠ 3 then 0
    else
      let p := if aeronautical then aeroMhzHz intStr fracStr
               else (digitsToNat intStr, fracHz fracStr)
      if p.1 < 4000 then p.1 * 1000000 + p.2 else 0

/-- `uint32_t` subtraction `a - b`. -/
def sub32 (a b : Nat) : Nat := (a + 4294967296 - b) % 4294967296

/-- `max_ch_offset = sample_rate_to_uint(rate) * 8 / 20` (uint32; the
products stay far below 2^32 for every table rate). -/
def maxChOffset (rate : SampleRate) : Nat := sample_rate_to_uint rate * 8 / 20

/-- `std::sort(tmp_channels.begin(), tmp_channels.end())` on the channel
names (`Channel::operator<` compares the `name` strings). -/
def sortedChannels (ns : List (List Char)) : List (List Char) :=
  List.insertionSort (· ≤ ·) ns

/-- `lo_fq`: the parsed frequency of the first sorted channel name. -/
def loChannelFq (ns : List (List Char)) : Nat :=
  parse_fq ((sortedChannels ns).headD []) true

/-- `hi_fq`: the parsed frequency of the last sorted channel name. -/
def hiChannelFq (ns : List (List Char)) : Nat :=
  parse_fq ((sortedChannels ns).getLastD []) true

/-- `mid_fq = lo_fq + (hi_fq - lo_fq) / 2` in `uint32_t`. -/
def tunerMidFq (ns : List (List Char)) : Nat :=
  (loChannelFq ns + sub32 (hiChannelFq ns) (loChannelFq ns) / 2) % 4294967296

/-- `mid_fq_rounded = (mid_fq / 100000) * 100000` — the midpoint rounded
down to 100 kHz, which becomes the tuner center. -/
def tunerMidFqRounded (ns : List (List Char)) : Nat :=
  tunerMidFq ns / 100000 * 100000

/-- `verify_requested_bandwidth(settings)`: false iff the lowest sorted
channel is below `mid_fq_rounded - max_ch_offset` or the highest is above
`mid_fq_rounded + max_ch_offset` (both bounds in `uint32_t` arithmetic). -/
def verify_requested_bandwidth (rate : SampleRate) (ns : List (List Char)) : Bool :=
  if loChannelFq ns < sub32 (tunerMidFqRounded ns) (maxChOffset rate) ∨
      (tunerMidFqRounded ns + maxChOffset rate) % 4294967296 < hiChannelFq ns
  then false else true

lemma digit_toNat_le {c : Char} (h : c.isDigit) : c.toNat - 48 ≤ 9 := by
  simp [Char.isDigit] at h
  obtain ⟨h1, h2⟩ := h
  have h3 : c.val.toNat ≤ (57 : UInt32).toNat := h2
  have h4 : (57 : UInt32).toNat = 57 := rfl
  simp only [Char.toNat]
  omega

lemma digitsToNat_aux_lt :
    ∀ (s : List Char) (acc : Nat), (∀ c ∈ s, c.isDigit) →
      s.foldl (fun acc c => acc * 10 + (c.toNat - 48)) acc < (acc + 1) * 10 ^ s.length
  | [], acc, _ => by simp
  | c :: s, acc, h => by
    have hc : c.toNat - 48 ≤ 9 := digit_toNat_le (h c (by simp))
    have ih := digitsToNat_aux_lt s (acc * 10 + (c.toNat - 48)) (fun d hd => h d (by simp [hd]))
    have hle : (acc * 10 + (c.toNat - 48) + 1) * 10 ^ s.length ≤
        (acc + 1) * 10 ^ (s.length + 1) := by
      have hstep : acc * 10 + (c.toNat - 48) + 1 ≤ (acc + 1) * 10 := by omega
      calc (acc * 10 + (c.toNat - 48) + 1) * 10 ^ s.length
          ≤ (acc + 1) * 10 * 10 ^ s.length := Nat.mul_le_mul_right _ hstep
        _ = (acc + 1) * 10 ^ (s.length + 1) := by ring
    simpa [List.foldl_cons] using lt_of_lt_of_le ih hle

lemma digitsToNat_lt (s : List Char) (h : ∀ c ∈ s, c.isDigit) :
    digitsToNat s < 10 ^ s.length := by
  simpa [digitsToNat] using digitsToNat_aux_lt s 0 h

lemma assocFind_le :
    ∀ (t : List (List Char × Nat)) (k : List Char) (v B : Nat),
      (∀ kv ∈ t, kv.2 ≤ B) → assocFind k t = some v → v ≤ B
  | [], _, _, _, _, h => by simp [assocFind] at h
  | (k', w) :: t, k, v, B, hb, h => by
    by_cases hk : k = k'
    · simp only [assocFind, if_pos hk, Option.some.injEq] at h
      exact h ▸ hb (k', w) (by simp)
    · simp only [assocFind, if_neg hk] at h
      exact assocFind_le t k v B (fun kv hkv => hb kv (by simp [hkv])) h

lemma assocFind_subChannelHz_le {k : List Char} {v : Nat}
    (h : assocFind k subChannelHz = some v) : v ≤ 91667 :=
  assocFind_le subChannelHz k v 91667 (by decide) h

lemma zip_mul_foldl_le :
    ∀ (s : List Char) (ms : List Nat) (acc : Nat), (∀ c ∈ s, c.isDigit) →
      (s.zip ms).foldl (fun acc p => acc + (p.1.toNat - 48) * p.2) acc ≤
        acc + 9 * ms.sum
  | [], ms, acc, _ => by simp
  | c :: s, [], acc, _ => by simp
  | c :: s, m :: ms, acc, h => by
    have hc : c.toNat - 48 ≤ 9 := digit_toNat_le (h c (by simp))
    have ih := zip_mul_foldl_le s ms (acc + (c.toNat - 48) * m)
      (fun d hd => h d (by simp [hd]))
    have hstep : acc + (c.toNat - 48) * m + 9 * ms.sum ≤ acc + 9 * (m + ms.sum) := by
      have : (c.toNat - 48) * m ≤ 9 * m := Nat.mul_le_mul_right _ hc
      omega
    simpa [List.zip_cons_cons, List.foldl_cons, List.sum_cons] using le_trans ih hstep

lemma aeroMhzHz_snd_le (intStr fracStr : List Char)
    (hdf : ∀ c ∈ fracStr, c.isDigit) (hne : fracStr ≠ []) :
    (aeroMhzHz intStr fracStr).2 ≤ 999999 := by
  unfold aeroMhzHz
  rcases hfind : assocFind (fracStr.drop 1) subChannelHz with _ | v
  · simp
  · have hv : v ≤ 91667 := assocFind_subChannelHz_le hfind
    have hhead : (fracStr.headD '0').toNat - 48 ≤ 9 := by
      rcases fracStr with _ | ⟨c, cs⟩
      · exact absurd rfl hne
      · exact digit_toNat_le (hdf c (by simp))
    simp only
    omega

lemma fracHz_le (fracStr : List Char) (hdf : ∀ c ∈ fracStr, c.isDigit) :
    fracHz fracStr ≤ 999999 := by
  have h := zip_mul_foldl_le fracStr [100000, 10000, 1000, 100, 10, 1] 0 hdf
  norm_num at h
  simpa [fracHz] using h

/-- Every frequency `parse_fq` can produce fits in `uint32_t`
(`mhz ≤ 3999`, `hz ≤ 999999`). -/
lemma parse_fq_lt (s : List Char) (aero : Bool) : parse_fq s aero < 4294967296 := by
  rcases hsplit : splitFirst '.' s with _ | ⟨intStr, fracStr⟩ <;>
    simp only [parse_fq, hsplit]
  · norm_num
  · split_ifs with h1 h2 h3 h4 h5
    · norm_num
    · norm_num
    · -- aeronautical, mhz < 4000
      push_neg at h1
      obtain ⟨hdi, hdf, _, _, hfl, _⟩ := h1
      have hdf' : ∀ c ∈ fracStr, c.isDigit := by
        simpa [List.all_eq_true] using hdf
      have hne : fracStr ≠ [] := by
        intro hnil
        exact hfl (by simp [hnil])
      have hsnd := aeroMhzHz_snd_le intStr fracStr hdf' hne
      omega
    · norm_num
    · -- plain frequency, mhz < 4000
      push_neg at h1
      obtain ⟨hdi, hdf, _, _, _, _⟩ := h1
      have hdf' : ∀ c ∈ fracStr, c.isDigit := by
        simpa [List.all_eq_true] using hdf
      have hhz := fracHz_le fracStr hdf'
      simp only at h5 ⊢
      omega
    · norm_num

lemma headD_mem {α : Type} (l : List α) (d : α) (h : l ≠ []) : l.headD d ∈ l := by
  cases l with
  | nil => exact absurd rfl h
  | cons a t => simp

lemma getLastD_mem {α : Type} : ∀ (l : List α) (d : α), l ≠ [] → l.getLastD d ∈ l
  | [], _, h => absurd rfl h
  | a :: t, d, _ => by
    cases t with
    | nil => simp [List.getLastD]
    | cons b t' =>
      have ih := getLastD_mem (b :: t') a (by simp)
      rw [List.getLastD_cons]
      exact List.mem_cons_of_mem a ih

lemma sorted_headD_le (l : List (List Char)) (hs : l.Sorted (· ≤ ·)) :
    ∀ x ∈ l, l.headD [] ≤ x := by
  cases l with
  | nil => intro x hx; simp at hx
  | cons a t =>
    intro x hx
    rcases List.mem_cons.mp hx with rfl | hx'
    · simp
    · exact List.rel_of_sorted_cons hs x hx'

lemma sorted_le_getLastD :
    ∀ (l : List (List Char)) (d : List Char), l.Sorted (· ≤ ·) →
      ∀ x ∈ l, x ≤ l.getLastD d
  | [], _, _, x, hx => by simp at hx
  | a :: t, d, hs, x, hx => by
    cases t with
    | nil =>
      rcases List.mem_cons.mp hx with rfl | hx'
      · simp [List.getLastD]
      · simp at hx'
    | cons b t' =>
      rw [List.getLastD_cons]
      rcases List.mem_cons.mp hx with rfl | hx'
      · exact List.rel_of_sorted_cons hs _ (getLastD_mem (b :: t') x (by simp))
      · exact sorted_le_getLastD (b :: t') a hs.of_cons x hx'

/-- C5 (counterexample): for rate 1.44 MS/s with channels
`{118.100, 119.000}` the bandwidth check *passes* (the claim says it
fails): the tuner center is 118.500 MHz, the window is ±576 kHz
(117.924–119.076 MHz), and both channels lie inside it. -/
theorem verify_bandwidth_counterexample :
    verify_requested_bandwidth SampleRate.FS01440
      [String.toList "118.100", String.toList "119.000"] = true ∧
    tunerMidFqRounded [String.toList "118.100", String.toList "119.000"] = 118500000 ∧
    maxChOffset SampleRate.FS01440 = 576000 := by
  decide

/-- C5 (amended): `verify_requested_bandwidth` returns true exactly when
every requested channel frequency lies within
`tuner_center ± max_ch_offset` (with `max_ch_offset = rate·8/20 = 0.4·rate`
and `tuner_center` the midpoint of the lowest and highest requested
channels rounded down to 100 kHz), for any nonempty channel list whose
lexicographic name order is consistent with frequency order (the code picks
the lowest/highest channel by sorting names) and whose window bounds do not
wrap `uint32_t`.  In particular, for rate 2.4 MS/s with
`{118.000, 119.000}` the tuner center becomes 118.500 MHz and the check
passes; and for rate 1.44 MS/s with `{118.100, 119.000}` the check *also
passes* (it does not fail as claimed). -/
theorem verify_bandwidth_amended :
    (∀ (rate : SampleRate) (ns : List (List Char)), ns ≠ [] →
      (∀ a b, a ∈ ns → b ∈ ns → a ≤ b → parse_fq a true ≤ parse_fq b true) →
      maxChOffset rate ≤ tunerMidFqRounded ns →
      tunerMidFqRounded ns + maxChOffset rate < 4294967296 →
      (verify_requested_bandwidth rate ns = true ↔
        ∀ ch ∈ ns,
          tunerMidFqRounded ns - maxChOffset rate ≤ parse_fq ch true ∧
          parse_fq ch true ≤ tunerMidFqRounded ns + maxChOffset rate)) ∧
    (tunerMidFqRounded [String.toList "118.000", String.toList "119.000"] = 118500000 ∧
     verify_requested_bandwidth SampleRate.FS02400
       [String.toList "118.000", String.toList "119.000"] = true) ∧
    verify_requested_bandwidth SampleRate.FS01440
      [String.toList "118.100", String.toList "119.000"] = true := by
  refine ⟨?_, by decide, by decide⟩
  intro rate ns hne hmono hoff hnw
  have hperm : (sortedChannels ns).Perm ns := List.perm_insertionSort _ ns
  have hsorted : (sortedChannels ns).Sorted (· ≤ ·) := List.sorted_insertionSort _ ns
  have hsne : sortedChannels ns ≠ [] := by
    intro h0
    rw [h0] at hperm
    exact hne (List.Perm.nil_eq hperm).symm
  have hlomem : (sortedChannels ns).headD [] ∈ ns :=
    hperm.mem_iff.mp (headD_mem _ _ hsne)
  have hhimem : (sortedChannels ns).getLastD [] ∈ ns :=
    hperm.mem_iff.mp (getLastD_mem _ _ hsne)
  have hlo_le : ∀ ch ∈ ns, loChannelFq ns ≤ parse_fq ch true := fun ch hch =>
    hmono _ ch hlomem hch (sorted_headD_le _ hsorted ch (hperm.mem_iff.mpr hch))
  have hhi_ge : ∀ ch ∈ ns, parse_fq ch true ≤ hiChannelFq ns := fun ch hch =>
    hmono ch _ hch hhimem (sorted_le_getLastD _ _ hsorted ch (hperm.mem_iff.mpr hch))
  have hmidlt : tunerMidFq ns < 4294967296 := Nat.mod_lt _ (by norm_num)
  have hRlt : tunerMidFqRounded ns < 4294967296 :=
    lt_of_le_of_lt (Nat.div_mul_le_self _ _) hmidlt
  have hsub : sub32 (tunerMidFqRounded ns) (maxChOffset rate) =
      tunerMidFqRounded ns - maxChOffset rate := by
    unfold sub32
    omega
  have hadd : (tunerMidFqRounded ns + maxChOffset rate) % 4294967296 =
      tunerMidFqRounded ns + maxChOffset rate := Nat.mod_eq_of_lt hnw
  constructor
  · intro hv ch hch
    simp only [verify_requested_bandwidth, hsub, hadd] at hv
    split_ifs at hv with hcond
    push_neg at hcond
    exact ⟨le_trans hcond.1 (hlo_le ch hch), le_trans (hhi_ge ch hch) hcond.2⟩
  · intro hall
    have h1 := hall _ hlomem
    have h2 := hall _ hhimem
    simp only [verify_requested_bandwidth, hsub, hadd]
    rw [if_neg]
    push_neg
    exact ⟨h1.1, h2.2⟩

/-- Witness for C5 at rate 2.4 MS/s with channels `{118.000, 119.000}`:
the check passes and indeed both channels lie inside the ±960 kHz window
around 118.500 MHz. -/
theorem verify_bandwidth_amended_witness :
    verify_requested_bandwidth SampleRate.FS02400
      [String.toList "118.000", String.toList "119.000"] = true ∧
    ∀ ch ∈ [String.toList "118.000", String.toList "119.000"],
      tunerMidFqRounded [String.toList "118.000", String.toList "119.000"]
          - maxChOffset SampleRate.FS02400 ≤ parse_fq ch true ∧
      parse_fq ch true ≤
        tunerMidFqRounded [String.toList "118.000", String.toList "119.000"]
          + maxChOffset SampleRate.FS02400 := by
  have hmono : ∀ a b, a ∈ [String.toList "118.000", String.toList "119.000"] →
      b ∈ [String.toList "118.000", String.toList "119.000"] → a ≤ b →
      parse_fq a true ≤ parse_fq b true := by
    intro a b ha hb hab
    fin_cases ha <;> fin_cases hb <;>
      first
        | decide
        | exact absurd hab (by decide)
  have h := (verify_bandwidth_amended.1 SampleRate.FS02400 _ (by decide) hmono
      (by decide) (by decide)).mp (by decide)
  exact ⟨by decide, h⟩

/-! ## Channel-to-offset conversion (`channel_to_offset` in `src/src/sdrx.cpp`) -/

/-- The sub-channel table of `channel_to_offset`: the last two digits of the
fractional part ↦ number of 8.33 kHz steps inside the 100 kHz band. -/
def subChannelSteps : List (List Char × Nat) :=
  [(['0','0'], 0), (['0','5'], 0), (['1','0'], 1), (['1','5'], 2),
   (['2','5'], 3), (['3','0'], 3), (['3','5'], 4), (['4','0'], 5),
   (['5','0'], 6), (['5','5'], 6), (['6','0'], 7), (['6','5'], 8),
   (['7','5'], 9), (['8','0'], 9), (['8','5'], 10), (['9','0'], 11)]

/-- `channel_to_offset(channel, tuner_fq)`: how many 8.33 kHz steps the
channel is from the tuner center.  `int` division truncates toward zero
(`Int.tdiv`).  The C++ code calls `substr` without checking for a missing
dot and dereferences the map iterator without checking for a missing key
(both undefined behaviour); channels reaching this function have been
validated by `parse_fq`, so neither happens, and the model returns 0 for
those unreachable inputs. -/
def channel_to_offset (channel : List Char) (tuner_fq : Int) : Int :=
  match splitFirst '.' channel with
  | none => 0
  | some (intStr, fracStr) =>
    let sub : Nat := ((assocFind (fracStr.drop 1) subChannelSteps).getD 0)
    let fqBase : Int := (digitsToNat intStr : Int) * 1000000 +
      (((fracStr.headD '0').toNat : Int) - 48) * 100000
    Int.tdiv (fqBase - tuner_fq) 100000 * 12 + (sub : Int)

/-- C6 (counterexample): with tuner 118.200 MHz the channel `118.105`
resolves to offset `-12`, not `-11` as claimed (`118.105` is the 8.33 kHz
channel on the 118.100 MHz carrier: sub-channel "05" contributes 0 steps,
and −100 kHz is −12 steps). -/
theorem channel_to_offset_counterexample :
    channel_to_offset (String.toList "118.105") 118200000 = -12 ∧
    channel_to_offset (String.toList "118.105") 118200000 ≠ -11 := by
  decide

/-- C6 (amended): `channel_to_offset` returns the channel's distance from
the tuner center in 8.33 kHz grid steps, with the spec's scenarios
resolving as the code computes them: for tuner 118.200 MHz the channels
`118.105` and `118.305` resolve to offsets `-12` and `+12` (not −11/+13),
and for tuner 118.000 MHz the channel `118.105` resolves to `+12` (not
+13): the "05" ending maps to 0 steps in the sub-channel table, i.e. the
name `x.y05` denotes the 8.33 kHz channel on the `x.y00` carrier. -/
theorem channel_to_offset_amended :
    channel_to_offset (String.toList "118.105") 118200000 = -12 ∧
    channel_to_offset (String.toList "118.305") 118200000 = 12 ∧
    channel_to_offset (String.toList "118.105") 118000000 = 12 := by
  decide

/-! ## IQ samples and the AGC (`iqsample.hpp`, `src/src/agc.hpp`)

`iqsample_t = std::complex<float>` is embedded as a pair of exact
rationals with complex arithmetic spelled out. -/

/-- A complex IQ sample. -/
structure Cq where
  re : ℚ
  im : ℚ
  deriving Repr, DecidableEq

/-- The zero sample. -/
def Cq.zero : Cq := ⟨0, 0⟩

/-- Complex addition. -/
def Cq.add (a b : Cq) : Cq := ⟨a.re + b.re, a.im + b.im⟩

/-- Complex multiplication. -/
def Cq.mul (a b : Cq) : Cq := ⟨a.re * b.re - a.im * b.im, a.re * b.im + a.im * b.re⟩

/-- Scaling by a real factor (`sample * gain_` with a real `gain_`, or FIR
filtering with real coefficients). -/
def Cq.smul (r : ℚ) (a : Cq) : Cq := ⟨r * a.re, r * a.im⟩

/-- The state of one `AGC` instance (`agc.hpp`): the four configuration
values and the current gain (constructed as 1.0). -/
structure AGCState where
  attack : ℚ
  decay : ℚ
  reference : ℚ
  maxGain : ℚ
  gain : ℚ
  deriving Repr, DecidableEq

namespace AGC

/-- `AGC::adjust(sample)`: scale by the current gain, compare the scaled
power (`std::norm`) with the reference, move the gain by `decay·error`
(under reference) or `attack·error` (over reference), clamp it into
`[0, max_gain_]`, and return the sample scaled with the gain held on
entry. -/
def adjust (st : AGCState) (sample : Cq) : Cq × AGCState :=
  let adjusted := Cq.smul st.gain sample
  let power := adjusted.re * adjusted.re + adjusted.im * adjusted.im
  let error := st.reference - power
  let g1 := if 0 < error then st.gain + st.decay * error
            else st.gain + st.attack * error
  let g2 := if g1 < 0 then 0 else if st.maxGain < g1 then st.maxGain else g1
  (adjusted, { st with gain := g2 })

/-- A back-to-back sequence of `adjust` calls (tracking only the state). -/
def adjustSeq (st : AGCState) (xs : List Cq) : AGCState :=
  xs.foldl (fun s x => (adjust s x).2) st

end AGC

lemma adjust_maxGain (st : AGCState) (x : Cq) :
    (AGC.adjust st x).2.maxGain = st.maxGain := rfl

lemma adjustSeq_maxGain : ∀ (xs : List Cq) (st : AGCState),
    (AGC.adjustSeq st xs).maxGain = st.maxGain
  | [], _ => rfl
  | x :: xs, st => by
    rw [AGC.adjustSeq, List.foldl_cons]
    exact (adjustSeq_maxGain xs _).trans (adjust_maxGain st x)

lemma adjust_gain_mem (st : AGCState) (x : Cq) (h : 0 ≤ st.maxGain) :
    0 ≤ (AGC.adjust st x).2.gain ∧ (AGC.adjust st x).2.gain ≤ st.maxGain := by
  simp only [AGC.adjust]
  split_ifs <;> constructor <;> linarith

/-- C10: for every AGC state with nonnegative `max_gain_` the gain is
clamped into `[0, max_gain_]` by every `adjust` call — both for a single
call from an arbitrary state and after the last call of an arbitrary
back-to-back sequence — and each returned sample is the input scaled by
the gain held on entry to the call. -/
theorem agc_adjust_spec (st : AGCState) (h : 0 ≤ st.maxGain) :
    (∀ x : Cq,
      (AGC.adjust st x).1 = Cq.smul st.gain x ∧
      0 ≤ (AGC.adjust st x).2.gain ∧ (AGC.adjust st x).2.gain ≤ st.maxGain ∧
      (AGC.adjust st x).2.maxGain = st.maxGain) ∧
    (∀ (xs : List Cq) (x : Cq),
      0 ≤ (AGC.adjustSeq st (xs ++ [x])).gain ∧
      (AGC.adjustSeq st (xs ++ [x])).gain ≤ st.maxGain) := by
  constructor
  · intro x
    obtain ⟨h1, h2⟩ := adjust_gain_mem st x h
    exact ⟨rfl, h1, h2, rfl⟩
  · intro xs x
    have hmax : (AGC.adjustSeq st xs).maxGain = st.maxGain := adjustSeq_maxGain xs st
    have hlast : AGC.adjustSeq st (xs ++ [x]) = (AGC.adjust (AGC.adjustSeq st xs) x).2 := by
      simp [AGC.adjustSeq, List.foldl_append]
    obtain ⟨h1, h2⟩ := adjust_gain_mem (AGC.adjustSeq st xs) x (hmax ▸ h)
    rw [hlast]
    exact ⟨h1, hmax ▸ h2⟩

/-- The default-constructed AGC: attack 10, decay 0.01, reference 0.25,
max gain 200, gain 1. -/
def agcDefault : AGCState := ⟨10, 1/100, 1/4, 200, 1⟩

/-- Witness for C10 at the default AGC on the unit sample: gain stays in
`[0, 200]` and the returned sample is the input times the entry gain 1. -/
theorem agc_adjust_spec_witness :
    (AGC.adjust agcDefault ⟨1, 0⟩).1 = Cq.smul 1 ⟨1, 0⟩ ∧
    0 ≤ (AGC.adjust agcDefault ⟨1, 0⟩).2.gain ∧
    (AGC.adjust agcDefault ⟨1, 0⟩).2.gain ≤ 200 ∧
    0 ≤ (AGC.adjustSeq agcDefault ([] ++ [⟨1, 0⟩])).gain := by
  have h := agc_adjust_spec agcDefault (by norm_num [agcDefault])
  obtain ⟨ha, hb, hc, _⟩ := h.1 ⟨1, 0⟩
  exact ⟨ha, hb, hc, (h.2 [] ⟨1, 0⟩).1⟩

/-! ## Multi-stage translating downsampler (`src/src/msd.hpp`)

One `MSD::S` stage: decimation factor `m_`, real FIR coefficients `h_`
(stored by the code with the same value in the real and imaginary slots;
kept here as the real list), the doubled delay line `d_`, the write cursor
`pos_`, the samples-needed counter `isn_`, the frequency-translating
coefficient sets `hk_` and the rotating set index `k_`.

The SIMD/unrolled loops of `calculateOutput` (folded FIR) and
`calculateOutputTranslated` (plain complex FIR) compute, in exact
arithmetic, the folded resp. plain sums written below; only the
association of the additions differs, which is invisible over `ℚ`.

`isn_` is `unsigned` in C++; the embedding uses `Nat`, which only differs
on the wrap `0 - 1` that a (meaningless) stage with `m = 0` would hit —
the claims quantify over decimation factors `≥ 1`. -/

structure MSDStage where
  m : Nat
  h : List ℚ
  d : List Cq
  pos : Nat
  isn : Nat
  hk : List (List Cq)
  k : Nat
  deriving Repr, DecidableEq

/-- The `MSD::S` constructor: zeroed doubled delay line, `isn_ = m`,
`k_ = 0`, and — when a translator is given — the `K = |translator| / m`
frequency-translating coefficient sets
`hk[set][n] = h[n] · translator[(set·m + n) mod |translator|] · 2`. -/
def mkStage (m : Nat) (h : List ℚ) (translator : List Cq) : MSDStage where
  m := m
  h := h
  d := List.replicate (2 * h.length) Cq.zero
  pos := 0
  isn := m
  k := 0
  hk :=
    if translator.isEmpty then []
    else
      (List.range (translator.length / m)).map fun set =>
        (List.range h.length).map fun n =>
          Cq.smul (2 * h.getD n 0) (translator.getD ((set * m + n) % translator.length) Cq.zero)

namespace MSDStage

/-- `S::addSample`: write the sample at `pos_` and `pos_ + h_.size()`,
advance (and wrap) the cursor, count down `isn_`; report (and reset) when
enough new samples have arrived for one output. -/
def addSample (st : MSDStage) (x : Cq) : Bool × MSDStage :=
  let d1 := (st.d.set st.pos x).set (st.pos + st.h.length) x
  let pos1 := if st.pos + 1 = st.h.length then 0 else st.pos + 1
  if st.isn - 1 = 0 then
    (true, { st with d := d1, pos := pos1, isn := st.m })
  else
    (false, { st with d := d1, pos := pos1, isn := st.isn - 1 })

/-- The delay-line window the output calculations read:
`d_ptr[n] = d_[pos_ + n]`. -/
def win (st : MSDStage) (n : Nat) : Cq := st.d.getD (st.pos + n) Cq.zero

/-- `S::calculateOutput`: the folded FIR
`Σ_{i<half} (d[i] + d[H-1-i]) · h[i] + d[half] · h[half]` with
`half = (H-1)/2`, applied separately to the real and imaginary parts
(the stored coefficients are real). -/
def calcOutput (st : MSDStage) : Cq :=
  let H := st.h.length
  let half := (H - 1) / 2
  ⟨((List.range half).map fun i =>
      ((st.win i).re + (st.win (H - 1 - i)).re) * st.h.getD i 0).sum +
    (st.win half).re * st.h.getD half 0,
   ((List.range half).map fun i =>
      ((st.win i).im + (st.win (H - 1 - i)).im) * st.h.getD i 0).sum +
    (st.win half).im * st.h.getD half 0⟩

/-- `S::calculateOutputTranslated`: the plain complex FIR
`Σ_n d[n] · hk[k][n]` over the current frequency-translating coefficient
set, advancing `k_` modulo the number of sets. -/
def calcTranslated (st : MSDStage) : Cq × MSDStage :=
  let coeffs := st.hk.getD st.k []
  let H := st.h.length
  let out : Cq :=
    ⟨((List.range H).map fun n =>
        (st.win n).re * (coeffs.getD n Cq.zero).re -
          (st.win n).im * (coeffs.getD n Cq.zero).im).sum,
     ((List.range H).map fun n =>
        (st.win n).re * (coeffs.getD n Cq.zero).im +
          (st.win n).im * (coeffs.getD n Cq.zero).re).sum⟩
  (out, { st with k := if st.k + 1 = st.hk.length then 0 else st.k + 1 })

end MSDStage

/-- Feed one sample through a cascade of stages, as the inner while-loop of
`MSD::decimate` does: each stage that produces passes its output on; a
sample falling out of the last stage is the decimated output. -/
def runCascade : List MSDStage → Cq → Option Cq × List MSDStage
  | [], x => (some x, [])
  | st :: rest, x =>
    let p := st.addSample x
    if p.1 then
      let y := p.2.calcOutput
      let q := runCascade rest y
      (q.1, p.2 :: q.2)
    else
      (none, p.2 :: rest)

/-- The whole MSD: stage list, total decimation factor `m_`, translator
vector, translator position and the `use_ftfir_` flag. -/
structure MSDState where
  stages : List MSDStage
  m : Nat
  translator : List Cq
  transPos : Nat
  useFtfir : Bool
  deriving Repr, DecidableEq

namespace MSD

/-- The `MSD` constructor: the first stage receives the translator when it
is nonempty (the constructor builds `hk_` there whether or not
`use_ftfir` is set), all others are plain; `m_` is the product of the
per-stage decimation factors. -/
def init (translator : List Cq) (cfgs : List (Nat × List ℚ)) (useFtfir : Bool) : MSDState where
  stages :=
    match cfgs with
    | [] => []
    | c0 :: rest =>
      (if translator.isEmpty then mkStage c0.1 c0.2 []
       else mkStage c0.1 c0.2 translator) :: rest.map fun c => mkStage c.1 c.2 []
  m := (cfgs.map Prod.fst).prod
  translator := translator
  transPos := 0
  useFtfir := useFtfir

/-- One input sample of `MSD::decimate`, in the three modes of the code:
empty translator (plain cascade); `use_ftfir_` (first stage uses
`calculateOutputTranslated`, the rest are plain; undefined behaviour in C++
when the stage list is empty, modeled as no output); translator without
ftfir (multiply by the translator cyclically, then plain cascade). -/
def step (s : MSDState) (x : Cq) : Option Cq × MSDState :=
  if s.translator.isEmpty then
    let p := runCascade s.stages x
    (p.1, { s with stages := p.2 })
  else if s.useFtfir then
    match s.stages with
    | [] => (none, s)
    | st :: rest =>
      let p := st.addSample x
      if p.1 then
        let q := p.2.calcTranslated
        let r := runCascade rest q.1
        (r.1, { s with stages := q.2 :: r.2 })
      else
        (none, { s with stages := p.2 :: rest })
  else
    let x1 := Cq.mul x (s.translator.getD s.transPos Cq.zero)
    let tp := if s.transPos + 1 = s.translator.length then 0 else s.transPos + 1
    let p := runCascade s.stages x1
    (p.1, { s with stages := p.2, transPos := tp })

/-- `MSD::decimate(in, in_len, out)`: feed every input sample through
`step`, collecting the produced output samples in order and returning
`out_len = `(number of outputs). -/
def decimate (s : MSDState) : List Cq → List Cq × MSDState
  | [] => ([], s)
  | x :: xs =>
    let p := step s x
    let r := decimate p.2 xs
    (p.1.toList ++ r.1, r.2)

end MSD

/-! ### The MSD rate law

The output count of `decimate` depends only on the per-stage counters
`isn_`/`m_`.  The proofs below factor the per-sample cascade into
per-stage stream processing (`stageRunWith`, `cascadeRun`) and count the
outputs of one stage from its counter state. -/

/-- Feed a stream through one stage: `addSample` each input, and whenever
the stage reports an output, compute it with `f` (the plain folded FIR for
ordinary stages, `calcTranslated` for an ftfir first stage). -/
def stageRunWith (f : MSDStage → Cq × MSDStage) :
    MSDStage → List Cq → List Cq × MSDStage
  | st, [] => ([], st)
  | st, x :: xs =>
    let p := st.addSample x
    if p.1 then
      let q := f p.2
      let r := stageRunWith f q.2 xs
      (q.1 :: r.1, r.2)
    else
      stageRunWith f p.2 xs

/-- Feed a stream through a cascade of plain stages sample by sample. -/
def cascadeRun : List MSDStage → List Cq → List Cq × List MSDStage
  | sts, [] => ([], sts)
  | sts, x :: xs =>
    let p := runCascade sts x
    let r := cascadeRun p.2 xs
    (p.1.toList ++ r.1, r.2)

/-- The total decimation factor of a stage list. -/
def msdFactor (sts : List MSDStage) : Nat := (sts.map MSDStage.m).prod

/-- The pointwise cyclic multiplication by the translator that the
non-ftfir translator mode applies before its cascade (also the spec's
description of the reference pipeline for the FTFIR equivalence). -/
def translateList (tr : List Cq) : Nat → List Cq → List Cq
  | _, [] => []
  | pos, x :: xs =>
    Cq.mul x (tr.getD pos Cq.zero) ::
      translateList tr (if pos + 1 = tr.length then 0 else pos + 1) xs

lemma translateList_length (tr : List Cq) :
    ∀ (pos : Nat) (xs : List Cq), (translateList tr pos xs).length = xs.length
  | _, [] => rfl
  | pos, x :: xs => by
    rw [translateList]
    simp [translateList_length tr _ xs]

lemma addSample_fst_true (st : MSDStage) (x : Cq) (h : st.isn - 1 = 0) :
    (st.addSample x).1 = true := by
  simp [MSDStage.addSample, h]

lemma addSample_fst_false (st : MSDStage) (x : Cq) (h : ¬ st.isn - 1 = 0) :
    (st.addSample x).1 = false := by
  simp [MSDStage.addSample, h]

lemma addSample_isn_true (st : MSDStage) (x : Cq) (h : st.isn - 1 = 0) :
    (st.addSample x).2.isn = st.m := by
  simp [MSDStage.addSample, h]

lemma addSample_isn_false (st : MSDStage) (x : Cq) (h : ¬ st.isn - 1 = 0) :
    (st.addSample x).2.isn = st.isn - 1 := by
  simp [MSDStage.addSample, h]

lemma addSample_m (st : MSDStage) (x : Cq) : (st.addSample x).2.m = st.m := by
  simp only [MSDStage.addSample]
  split <;> rfl

lemma stageRunWith_count (f : MSDStage → Cq × MSDStage)
    (hf : ∀ st, (f st).2.isn = st.isn ∧ (f st).2.m = st.m) :
    ∀ (xs : List Cq) (st : MSDStage), 1 ≤ st.isn → st.isn ≤ st.m →
      (stageRunWith f st xs).1.length = (st.m - st.isn + xs.length) / st.m ∧
      (stageRunWith f st xs).2.m = st.m ∧
      (stageRunWith f st xs).2.isn = st.m - (st.m - st.isn + xs.length) % st.m ∧
      1 ≤ (stageRunWith f st xs).2.isn ∧ (stageRunWith f st xs).2.isn ≤ st.m
  | [], st, h1, h2 => by
    have hlt : st.m - st.isn < st.m := by omega
    refine ⟨?_, rfl, ?_, ?_, ?_⟩ <;>
      simp [stageRunWith, Nat.div_eq_of_lt hlt, Nat.mod_eq_of_lt hlt] <;> omega
  | x :: xs, st, h1, h2 => by
    have hm0 : 0 < st.m := lt_of_lt_of_le h1 h2
    by_cases hp : st.isn - 1 = 0
    · -- the stage produces: isn was 1, the counter resets to m
      have hstep : stageRunWith f st (x :: xs) =
          ((f (st.addSample x).2).1 :: (stageRunWith f (f (st.addSample x).2).2 xs).1,
           (stageRunWith f (f (st.addSample x).2).2 xs).2) := by
        simp [stageRunWith, addSample_fst_true st x hp]
      obtain ⟨hfi, hfm⟩ := hf (st.addSample x).2
      have h2isn : (f (st.addSample x).2).2.isn = st.m := by
        rw [hfi, addSample_isn_true st x hp]
      have h2m : (f (st.addSample x).2).2.m = st.m := by
        rw [hfm, addSample_m]
      have ih := stageRunWith_count f hf xs (f (st.addSample x).2).2
        (by omega) (by omega)
      rw [h2isn, h2m] at ih
      obtain ⟨ihl, ihm, ihisn, ihb1, ihb2⟩ := ih
      have e0 : st.m - st.m + xs.length = xs.length := by omega
      rw [e0] at ihl ihisn
      rw [hstep]
      dsimp only
      have e2 : st.m - st.isn + (x :: xs).length = xs.length + st.m := by
        simp only [List.length_cons]
        omega
      refine ⟨?_, ihm, ?_, ihb1, ihb2⟩
      · rw [List.length_cons, ihl, e2, Nat.add_div_right _ hm0]
      · rw [ihisn, e2, Nat.add_mod_right]
    · -- the stage needs more samples: the counter just decrements
      have hstep : stageRunWith f st (x :: xs) = stageRunWith f (st.addSample x).2 xs := by
        simp [stageRunWith, addSample_fst_false st x hp]
      have h1isn : (st.addSample x).2.isn = st.isn - 1 := addSample_isn_false st x hp
      have h1m : (st.addSample x).2.m = st.m := addSample_m st x
      have ih := stageRunWith_count f hf xs (st.addSample x).2
        (by omega) (by omega)
      rw [h1isn, h1m] at ih
      obtain ⟨ihl, ihm, ihisn, ihb1, ihb2⟩ := ih
      rw [hstep]
      have e : st.m - (st.isn - 1) + xs.length = st.m - st.isn + (x :: xs).length := by
        simp only [List.length_cons]
        omega
      rw [e] at ihl ihisn
      exact ⟨ihl, ihm, ihisn, ihb1, ihb2⟩

/-- The output computation of an ordinary (non-translating) stage: the
folded FIR output, leaving the stage as `addSample` left it. -/
def plainOut (s : MSDStage) : Cq × MSDStage := (s.calcOutput, s)

lemma cascadeRun_nil : ∀ xs : List Cq, cascadeRun [] xs = (xs, [])
  | [] => rfl
  | x :: xs => by
    rw [cascadeRun, runCascade]
    simp [cascadeRun_nil xs]

/-- Stream fusion: running a cascade sample by sample equals running the
first stage over the whole stream and then the remaining cascade over its
outputs. -/
lemma cascadeRun_cons : ∀ (xs : List Cq) (st : MSDStage) (rest : List MSDStage),
    cascadeRun (st :: rest) xs =
      ((cascadeRun rest (stageRunWith plainOut st xs).1).1,
       (stageRunWith plainOut st xs).2 ::
         (cascadeRun rest (stageRunWith plainOut st xs).1).2)
  | [], st, rest => rfl
  | x :: xs, st, rest => by
    by_cases hp : st.isn - 1 = 0
    · have hrc : runCascade (st :: rest) x =
          ((runCascade rest (st.addSample x).2.calcOutput).1,
           (st.addSample x).2 :: (runCascade rest (st.addSample x).2.calcOutput).2) := by
        simp [runCascade, addSample_fst_true st x hp]
      have hsr : stageRunWith plainOut st (x :: xs) =
          ((st.addSample x).2.calcOutput :: (stageRunWith plainOut (st.addSample x).2 xs).1,
           (stageRunWith plainOut (st.addSample x).2 xs).2) := by
        simp [stageRunWith, addSample_fst_true st x hp, plainOut]
      rw [cascadeRun, hrc, hsr]
      dsimp only
      rw [cascadeRun_cons xs (st.addSample x).2
        (runCascade rest (st.addSample x).2.calcOutput).2]
      rw [cascadeRun]
    · have hrc : runCascade (st :: rest) x = (none, (st.addSample x).2 :: rest) := by
        simp [runCascade, addSample_fst_false st x hp]
      have hsr : stageRunWith plainOut st (x :: xs) =
          stageRunWith plainOut (st.addSample x).2 xs := by
        simp [stageRunWith, addSample_fst_false st x hp]
      rw [cascadeRun, hrc, hsr]
      dsimp only
      rw [cascadeRun_cons xs (st.addSample x).2 rest]
      simp

lemma cascadeRun_count : ∀ (sts : List MSDStage) (xs : List Cq),
    (∀ st ∈ sts, st.isn = st.m ∧ 1 ≤ st.m) → msdFactor sts ∣ xs.length →
      (cascadeRun sts xs).1.length = xs.length / msdFactor sts ∧
      (∀ st ∈ (cascadeRun sts xs).2, st.isn = st.m ∧ 1 ≤ st.m) ∧
      (cascadeRun sts xs).2.map MSDStage.m = sts.map MSDStage.m
  | [], xs, _, _ => by
    rw [cascadeRun_nil]
    simp [msdFactor]
  | st :: rest, xs, hfull, hdvd => by
    have hst := hfull st (List.mem_cons_self st rest)
    have hrest : ∀ s ∈ rest, s.isn = s.m ∧ 1 ≤ s.m :=
      fun s hs => hfull s (List.mem_cons_of_mem st hs)
    have hm0 : 0 < st.m := hst.2
    have hfact : msdFactor (st :: rest) = st.m * msdFactor rest := by
      simp [msdFactor]
    have hmdvd : st.m ∣ xs.length := dvd_trans ⟨msdFactor rest, rfl⟩ (hfact ▸ hdvd)
    have hcount := stageRunWith_count plainOut (fun s => ⟨rfl, rfl⟩) xs st
      (hst.1 ▸ hm0) (le_of_eq hst.1)
    obtain ⟨hlen, hm, hisn, _, _⟩ := hcount
    rw [hst.1] at hlen hisn
    have e0 : st.m - st.m + xs.length = xs.length := by omega
    rw [e0] at hlen hisn
    have hmod0 : xs.length % st.m = 0 := (Nat.mod_eq_zero_of_dvd hmdvd)
    have hstagefull : (stageRunWith plainOut st xs).2.isn = (stageRunWith plainOut st xs).2.m ∧
        1 ≤ (stageRunWith plainOut st xs).2.m := by
      constructor
      · rw [hisn, hmod0, hm]
        omega
      · rw [hm]
        exact hm0
    have hdvd2 : msdFactor rest ∣ xs.length / st.m := by
      rw [Nat.dvd_div_iff_mul_dvd hmdvd]
      exact hfact ▸ hdvd
    have ih := cascadeRun_count rest (stageRunWith plainOut st xs).1 hrest
      (by rw [hlen]; exact hdvd2)
    obtain ⟨ihlen, ihfull, ihmap⟩ := ih
    rw [cascadeRun_cons]
    refine ⟨?_, ?_, ?_⟩
    · dsimp only
      rw [ihlen, hlen, hfact, Nat.div_div_eq_div_mul]
    · intro s hs
      rcases List.mem_cons.mp hs with rfl | hs'
      · exact hstagefull
      · exact ihfull s hs'
    · dsimp only
      rw [List.map_cons, ihmap, hm, List.map_cons]

/-- The translator position after feeding `n` samples in the non-ftfir
translator mode. -/
def advancePos (len : Nat) : Nat → Nat → Nat
  | pos, 0 => pos
  | pos, n + 1 => advancePos len (if pos + 1 = len then 0 else pos + 1) n

lemma decimate_bypass : ∀ (xs : List Cq) (s : MSDState), s.translator.isEmpty = true →
    MSD.decimate s xs =
      ((cascadeRun s.stages xs).1, { s with stages := (cascadeRun s.stages xs).2 })
  | [], s, h => by
    rw [MSD.decimate, cascadeRun]
  | x :: xs, s, h => by
    have hstep : MSD.step s x =
        ((runCascade s.stages x).1, { s with stages := (runCascade s.stages x).2 }) := by
      simp [MSD.step, h]
    rw [MSD.decimate, hstep]
    dsimp only
    rw [decimate_bypass xs { s with stages := (runCascade s.stages x).2 } h]
    rw [cascadeRun]

lemma decimate_direct : ∀ (xs : List Cq) (s : MSDState), s.translator.isEmpty = false →
    s.useFtfir = false →
    MSD.decimate s xs =
      ((cascadeRun s.stages (translateList s.translator s.transPos xs)).1,
       { s with
          stages := (cascadeRun s.stages (translateList s.translator s.transPos xs)).2,
          transPos := advancePos s.translator.length s.transPos xs.length })
  | [], s, h1, h2 => by
    rw [MSD.decimate, translateList, cascadeRun]
    simp only [advancePos]
  | x :: xs, s, h1, h2 => by
    have hstep : MSD.step s x =
        ((runCascade s.stages (Cq.mul x (s.translator.getD s.transPos Cq.zero))).1,
         { s with
            stages := (runCascade s.stages (Cq.mul x (s.translator.getD s.transPos Cq.zero))).2,
            transPos := if s.transPos + 1 = s.translator.length then 0
                        else s.transPos + 1 }) := by
      simp [MSD.step, h1, h2]
    rw [MSD.decimate, hstep]
    dsimp only
    rw [decimate_direct xs
      { s with
         stages := (runCascade s.stages (Cq.mul x (s.translator.getD s.transPos Cq.zero))).2,
         transPos := if s.transPos + 1 = s.translator.length then 0
                     else s.transPos + 1 } h1 h2]
    rw [translateList, cascadeRun, List.length_cons]
    simp only [advancePos]

lemma decimate_ftfir : ∀ (xs : List Cq) (s : MSDState) (st : MSDStage)
    (rest : List MSDStage), s.stages = st :: rest → s.translator.isEmpty = false →
    s.useFtfir = true →
    MSD.decimate s xs =
      ((cascadeRun rest (stageRunWith MSDStage.calcTranslated st xs).1).1,
       { s with stages := (stageRunWith MSDStage.calcTranslated st xs).2 ::
           (cascadeRun rest (stageRunWith MSDStage.calcTranslated st xs).1).2 })
  | [], s, st, rest, hs, h1, h2 => by
    rw [MSD.decimate, stageRunWith, cascadeRun, ← hs]
  | x :: xs, s, st, rest, hs, h1, h2 => by
    by_cases hp : st.isn - 1 = 0
    · have hstep : MSD.step s x =
          ((runCascade rest ((st.addSample x).2.calcTranslated).1).1,
           { s with stages := ((st.addSample x).2.calcTranslated).2 ::
               (runCascade rest ((st.addSample x).2.calcTranslated).1).2 }) := by
        simp [MSD.step, h1, h2, hs, addSample_fst_true st x hp]
      have hsr : stageRunWith MSDStage.calcTranslated st (x :: xs) =
          (((st.addSample x).2.calcTranslated).1 ::
             (stageRunWith MSDStage.calcTranslated ((st.addSample x).2.calcTranslated).2 xs).1,
           (stageRunWith MSDStage.calcTranslated ((st.addSample x).2.calcTranslated).2 xs).2) := by
        simp [stageRunWith, addSample_fst_true st x hp]
      rw [MSD.decimate, hstep]
      dsimp only
      rw [decimate_ftfir xs
        { s with stages := ((st.addSample x).2.calcTranslated).2 ::
            (runCascade rest ((st.addSample x).2.calcTranslated).1).2 }
        ((st.addSample x).2.calcTranslated).2
        (runCascade rest ((st.addSample x).2.calcTranslated).1).2 rfl h1 h2]
      rw [hsr]
      dsimp only
      rw [cascadeRun]
    · have hstep : MSD.step s x =
          (none, { s with stages := (st.addSample x).2 :: rest }) := by
        simp [MSD.step, h1, h2, hs, addSample_fst_false st x hp]
      have hsr : stageRunWith MSDStage.calcTranslated st (x :: xs) =
          stageRunWith MSDStage.calcTranslated (st.addSample x).2 xs := by
        simp [stageRunWith, addSample_fst_false st x hp]
      rw [MSD.decimate, hstep]
      dsimp only
      rw [decimate_ftfir xs { s with stages := (st.addSample x).2 :: rest }
        (st.addSample x).2 rest rfl h1 h2]
      rw [hsr]
      dsimp only
      rw [Option.toList_none, List.nil_append]

/-- Counting through a first stage with output function `f` followed by a
plain cascade (the shape of the ftfir pipeline). -/
lemma chain_count (f : MSDStage → Cq × MSDStage)
    (hf : ∀ st, (f st).2.isn = st.isn ∧ (f st).2.m = st.m)
    (st : MSDStage) (rest : List MSDStage) (xs : List Cq)
    (hst : st.isn = st.m ∧ 1 ≤ st.m)
    (hrest : ∀ s ∈ rest, s.isn = s.m ∧ 1 ≤ s.m)
    (hdvd : st.m * msdFactor rest ∣ xs.length) :
    (cascadeRun rest (stageRunWith f st xs).1).1.length =
      xs.length / (st.m * msdFactor rest) ∧
    ((stageRunWith f st xs).2.isn = (stageRunWith f st xs).2.m ∧
      1 ≤ (stageRunWith f st xs).2.m) ∧
    (stageRunWith f st xs).2.m = st.m ∧
    (∀ u ∈ (cascadeRun rest (stageRunWith f st xs).1).2, u.isn = u.m ∧ 1 ≤ u.m) ∧
    (cascadeRun rest (stageRunWith f st xs).1).2.map MSDStage.m =
      rest.map MSDStage.m := by
  have hm0 : 0 < st.m := hst.2
  have hmdvd : st.m ∣ xs.length := dvd_trans ⟨msdFactor rest, rfl⟩ hdvd
  have hcount := stageRunWith_count f hf xs st (hst.1 ▸ hm0) (le_of_eq hst.1)
  obtain ⟨hlen, hm, hisn, _, _⟩ := hcount
  rw [hst.1] at hlen hisn
  have e0 : st.m - st.m + xs.length = xs.length := by omega
  rw [e0] at hlen hisn
  have hmod0 : xs.length % st.m = 0 := Nat.mod_eq_zero_of_dvd hmdvd
  have hdvd2 : msdFactor rest ∣ xs.length / st.m := by
    rw [Nat.dvd_div_iff_mul_dvd hmdvd]
    exact hdvd
  have ih := cascadeRun_count rest (stageRunWith f st xs).1 hrest
    (by rw [hlen]; exact hdvd2)
  obtain ⟨ihlen, ihfull, ihmap⟩ := ih
  refine ⟨?_, ⟨?_, ?_⟩, hm, ihfull, ihmap⟩
  · rw [ihlen, hlen, Nat.div_div_eq_div_mul]
  · rw [hisn, hmod0, hm]
    omega
  · rw [hm]
    exact hm0

lemma calcTranslated_preserves (st : MSDStage) :
    (st.calcTranslated).2.isn = st.isn ∧ (st.calcTranslated).2.m = st.m := ⟨rfl, rfl⟩

/-- The stage counters of an MSD state are all "full" (a fresh stage, or
one that has just consumed a whole multiple of its factor) with positive
decimation factors. -/
def stagesReady (s : MSDState) : Prop := ∀ st ∈ s.stages, st.isn = st.m ∧ 1 ≤ st.m

/-- C2 (MSD rate law): a freshly constructed MSD (in any mode) has all
stage counters full and total factor `m_ = Π M_i`; and from any
counters-full state, a `decimate` call on `in_len` samples with
`Π M_i ∣ in_len` writes exactly `in_len / Π M_i` output samples and
returns the counters to full with the stage factors, translator and mode
unchanged — so every call of a back-to-back sequence from a fresh MSD
obeys the rate law, in all three modes (empty translator; translator with
`use_ftfir` false; `use_ftfir` true, where C++ requires a nonempty stage
list). -/
theorem msd_rate_law :
    (∀ (translator : List Cq) (cfgs : List (Nat × List ℚ)) (ftfir : Bool),
      (∀ c ∈ cfgs, 1 ≤ c.1) →
      stagesReady (MSD.init translator cfgs ftfir) ∧
      (MSD.init translator cfgs ftfir).m =
        msdFactor (MSD.init translator cfgs ftfir).stages) ∧
    (∀ (s : MSDState) (xs : List Cq), stagesReady s →
      (s.useFtfir = true → s.translator.isEmpty = false → s.stages ≠ []) →
      msdFactor s.stages ∣ xs.length →
      (MSD.decimate s xs).1.length = xs.length / msdFactor s.stages ∧
      stagesReady (MSD.decimate s xs).2 ∧
      (MSD.decimate s xs).2.stages.map MSDStage.m = s.stages.map MSDStage.m ∧
      (MSD.decimate s xs).2.translator = s.translator ∧
      (MSD.decimate s xs).2.useFtfir = s.useFtfir) := by
  constructor
  · intro translator cfgs ftfir hm
    cases cfgs with
    | nil =>
      constructor
      · intro st hst
        simp [MSD.init] at hst
      · simp [MSD.init, msdFactor]
    | cons c0 rest =>
      constructor
      · intro st hst
        simp only [MSD.init, List.mem_cons] at hst
        rcases hst with rfl | hst'
        · have h0 := hm c0 (List.mem_cons_self c0 rest)
          split <;> exact ⟨rfl, h0⟩
        · obtain ⟨c, hc, rfl⟩ := List.mem_map.mp hst'
          exact ⟨rfl, hm c (List.mem_cons_of_mem c0 hc)⟩
      · simp only [MSD.init, msdFactor]
        congr 1
        rw [List.map_cons, List.map_cons, List.map_map]
        congr 1
        split <;> rfl
  · intro s xs hready hne hdvd
    by_cases hemp : s.translator.isEmpty
    · rw [decimate_bypass xs s hemp]
      obtain ⟨hlen, hfull, hmap⟩ := cascadeRun_count s.stages xs hready hdvd
      exact ⟨hlen, hfull, hmap, rfl, rfl⟩
    · have hemp' : s.translator.isEmpty = false := by
        simpa using hemp
      by_cases hff : s.useFtfir
      · rcases hstages : s.stages with _ | ⟨st, rest⟩
        · exact absurd hstages (hne hff hemp')
        · rw [decimate_ftfir xs s st rest hstages hemp' hff]
          have hst := hready st (hstages ▸ List.mem_cons_self st rest)
          have hrest : ∀ u ∈ rest, u.isn = u.m ∧ 1 ≤ u.m :=
            fun u hu => hready u (hstages ▸ List.mem_cons_of_mem st hu)
          have hfact : msdFactor s.stages = st.m * msdFactor rest := by
            rw [hstages, msdFactor, List.map_cons, List.prod_cons, msdFactor]
          have hfact2 : msdFactor (st :: rest) = st.m * msdFactor rest := by
            rw [msdFactor, List.map_cons, List.prod_cons, msdFactor]
          obtain ⟨hlen, hstfull, hstm, hfull, hmap⟩ :=
            chain_count MSDStage.calcTranslated calcTranslated_preserves st rest xs
              hst hrest (hfact ▸ hdvd)
          refine ⟨by rw [hlen, hfact2], ?_, ?_, rfl, rfl⟩
          · intro u hu
            rcases List.mem_cons.mp hu with rfl | hu'
            · exact hstfull
            · exact hfull u hu'
          · dsimp only
            rw [List.map_cons, List.map_cons, hmap, hstm]
      · have hff' : s.useFtfir = false := by
          simpa using hff
        rw [decimate_direct xs s hemp' hff']
        obtain ⟨hlen, hfull, hmap⟩ := cascadeRun_count s.stages
          (translateList s.translator s.transPos xs) hready
          (by rw [translateList_length]; exact hdvd)
        rw [translateList_length] at hlen
        exact ⟨hlen, hfull, hmap, rfl, rfl⟩

/-- Witness for C2: the two-stage MSD with factors 2 and 3 (bypass mode),
fed 6 samples from fresh construction, is counters-full at construction
and produces exactly 6 / 6 = 1 output sample. -/
theorem msd_rate_law_witness :
    stagesReady (MSD.init [] [(2, [1]), (3, [1])] false) ∧
    (MSD.decimate (MSD.init [] [(2, [1]), (3, [1])] false)
        (List.replicate 6 Cq.zero)).1.length = 1 := by
  have hfac : msdFactor (MSD.init [] [(2, [1]), (3, [1])] false).stages = 6 := rfl
  have h1 := msd_rate_law.1 [] [(2, [1]), (3, [1])] false
    (by intro c hc; fin_cases hc <;> norm_num)
  have h2 := msd_rate_law.2 (MSD.init [] [(2, [1]), (3, [1])] false)
    (List.replicate 6 Cq.zero) h1.1
    (fun hff _ => absurd hff (by simp [MSD.init]))
    (by rw [hfac, List.length_replicate])
  refine ⟨h1.1, ?_⟩
  rw [h2.1, hfac, List.length_replicate]

/-- C3 (evaluation at the failing input): for translator `[1]` and a single
stage with `M = 1`, `h = [1]`, the ftfir pipeline maps the input `[1]` to
`[2]`, while multiplying the input pointwise by the translator and running
the same stages with an empty translator maps it to `[1]` — the FTFIR
output is exactly twice the reference output (`hk[0][0] = 2·1·1 = 2`), so
the relative difference is 1, far beyond the claimed 1e-4: the factor 2
that `msd.hpp` applies to the translated coefficients (its comment says it
compensates a FTFIR gain of 0.5) doubles the output instead of matching
the reference pipeline. -/
theorem msd_ftfir_gain_bug :
    (MSD.decimate (MSD.init [⟨1, 0⟩] [(1, [1])] true) [⟨1, 0⟩]).1 = [⟨2, 0⟩] ∧
    (MSD.decimate (MSD.init [] [(1, [1])] false)
        (translateList [⟨1, 0⟩] 0 [⟨1, 0⟩])).1 = [⟨1, 0⟩] ∧
    ¬ (((2 : ℚ) - 1) * ((2 : ℚ) - 1) ≤
        (1 / 10000) * (1 / 10000) * ((1 : ℚ) * 1 + 0 * 0)) := by
  refine ⟨?_, ?_, by norm_num⟩
  · norm_num [MSD.decimate, MSD.step, MSD.init, mkStage, runCascade, MSDStage.addSample,
      MSDStage.calcTranslated, MSDStage.calcOutput, MSDStage.win, Cq.mul, Cq.add, Cq.smul,
      Cq.zero, List.getD, List.range, List.range.loop]
  · norm_num [MSD.decimate, MSD.step, MSD.init, mkStage, runCascade, MSDStage.addSample,
      MSDStage.calcTranslated, MSDStage.calcOutput, MSDStage.win, translateList, Cq.mul,
      Cq.add, Cq.smul, Cq.zero, List.getD, List.range, List.range.loop]

/-! ### CRB FIFO order (C4)

The committed-but-unread chunks of a CRB state form a queue of slot
slices; the invariant below is preserved by every (arbitrarily
interleaved) `acquireWrite`/`commitWrite`/`acquireRead`/`commitRead` call,
and under it a successful `commitWrite` appends its chunk to the queue, a
successful `acquireRead` hands out exactly the queue's head (chunk and
metadata live in the same slot), and a successful `commitRead` pops it. -/

/-- The slice `l[a..b)` (empty when `a ≥ b` or `a ≥ l.length`). -/
def sliceIdx (l : List α) (a b : Nat) : List α := (l.drop a).take (b - a)

lemma sliceIdx_self (l : List α) (a : Nat) : sliceIdx l a a = [] := by
  simp [sliceIdx]

lemma sliceIdx_getElem? (l : List α) (a b n : Nat) :
    (sliceIdx l a b)[n]? = if n < b - a then l[a + n]? else none := by
  rw [sliceIdx, List.getElem?_take]
  split_ifs with h
  · exact List.getElem?_drop l a n
  · rfl

lemma sliceIdx_cons (l : List α) (a b : Nat) (hab : a < b) :
    sliceIdx l a b = (l[a]?).toList ++ sliceIdx l (a + 1) b := by
  rcases hdrop : l.drop a with _ | ⟨x, xs⟩
  · have ha : l[a]? = none := by
      rw [← List.head?_drop, hdrop]
      rfl
    have hd1 : l.drop (a + 1) = [] := by
      rw [← List.tail_drop, hdrop]
      rfl
    simp [sliceIdx, hdrop, hd1, ha]
  · have ha : l[a]? = some x := by
      rw [← List.head?_drop, hdrop]
      rfl
    have hd1 : l.drop (a + 1) = xs := by
      rw [← List.tail_drop, hdrop]
      rfl
    have hb : b - a = (b - (a + 1)) + 1 := by omega
    simp [sliceIdx, hdrop, hd1, ha, hb]

lemma sliceIdx_snoc (l : List α) (a b : Nat) (hab : a ≤ b) :
    sliceIdx l a (b + 1) = sliceIdx l a b ++ (l[b]?).toList := by
  have h1 : b + 1 - a = (b - a) + 1 := by omega
  have h2 : a + (b - a) = b := by omega
  rw [sliceIdx, h1, List.take_succ, List.getElem?_drop, h2]
  rfl

lemma sliceIdx_set_outside (l : List α) (a b i : Nat) (v : α)
    (h : i < a ∨ b ≤ i) : sliceIdx (l.set i v) a b = sliceIdx l a b := by
  apply List.ext_getElem?
  intro n
  rw [sliceIdx_getElem?, sliceIdx_getElem?]
  split_ifs with hn
  · exact List.getElem?_set_ne (by omega)
  · rfl

lemma sliceIdx_head? (l : List α) (a b : Nat) (hab : a < b) :
    (sliceIdx l a b).head? = l[a]? := by
  rw [sliceIdx_cons l a b hab]
  rcases ha : l[a]? with _ | x
  · have hlen : l.length ≤ a := by
      by_contra hcon
      push_neg at hcon
      rw [List.getElem?_eq_getElem hcon] at ha
      cases ha
    have : l.drop (a + 1) = [] := List.drop_eq_nil_of_le (by omega)
    simp [sliceIdx, this]
  · simp

lemma sliceIdx_ne_nil (l : List α) (a b : Nat) (hab : a < b) (ha : a < l.length) :
    sliceIdx l a b ≠ [] := by
  intro hnil
  have := sliceIdx_head? l a b hab
  rw [hnil, List.getElem?_eq_getElem ha] at this
  cases this

/-- The queue of committed-but-unread chunks of a CRB state, oldest first:
slot indices `read_ptr_ .. write_ptr_` when the writer leads the reader
(state 1), and `read_ptr_ .. end_ptr_` followed by `0 .. write_ptr_` after
a wrap-around (state 2). -/
def CRB.queue (s : CRBState α) : List α :=
  if s.readPtr ≤ s.writePtr then sliceIdx s.slots s.readPtr s.writePtr
  else sliceIdx s.slots s.readPtr s.endPtr ++ sliceIdx s.slots 0 s.writePtr

/-- The protocol invariant of a single-producer/single-consumer CRB: the
pointers stay inside the `capacity_` slots, `end_ptr_` and
`acquired_end_ptr_` always hold `capacity_ - 1`, a wrapped state keeps
`write_ptr_ >= 1`, and a pending acquired write (resp. read) sits exactly
where the corresponding commit expects it. -/
structure CRBInv (s : CRBState α) : Prop where
  cap2 : 2 ≤ s.slots.length
  wrLt : s.writePtr < s.slots.length
  rdLt : s.readPtr < s.slots.length
  endEq : s.endPtr = s.slots.length - 1
  aeEq : s.acquiredEndPtr = s.slots.length - 1
  st2wr : s.writePtr < s.readPtr → 1 ≤ s.writePtr
  pw : s.acquiredWriteLen ≠ 0 →
    (s.acquiredWritePtr = s.writePtr ∧ s.writePtr + 1 < s.slots.length ∧
      (s.readPtr ≤ s.writePtr ∨ s.writePtr + 1 < s.readPtr)) ∨
    (s.acquiredWritePtr = 0 ∧ s.writePtr = s.slots.length - 1 ∧
      1 < s.readPtr ∧ s.readPtr ≤ s.writePtr)
  pr : s.acquiredReadLen ≠ 0 →
    (s.acquiredReadPtr = s.readPtr ∧
      (s.readPtr < s.writePtr ∨
       (s.writePtr < s.readPtr ∧ s.readPtr < s.slots.length - 1))) ∨
    (s.acquiredReadPtr = 0 ∧ s.readPtr = s.slots.length - 1 ∧
      1 ≤ s.writePtr ∧ s.writePtr < s.readPtr)

lemma inv_init (d : α) (n : Nat) (hn : 1 ≤ n) : CRBInv (CRB.init d n) := by
  have hlen : (List.replicate (n + 1) d).length = n + 1 := by simp
  constructor <;> dsimp only [CRB.init] <;> omega

lemma inv_acquireWrite {s : CRBState α} (h : CRBInv s) :
    CRBInv (CRB.acquireWrite s).2 ∧
    CRB.queue (CRB.acquireWrite s).2 = CRB.queue s := by
  obtain ⟨cap2, wrLt, rdLt, endEq, aeEq, st2wr, pw, pr⟩ := h
  simp only [CRB.acquireWrite]
  split_ifs with h1 h2 h3 h4 <;>
    exact ⟨by constructor <;> dsimp only <;> omega, rfl⟩

lemma inv_commitWrite {s : CRBState α} (v : α) (h : CRBInv s) :
    CRBInv (CRB.commitWrite v s).2 ∧
    ((CRB.commitWrite v s).1 = true →
      CRB.queue (CRB.commitWrite v s).2 = CRB.queue s ++ [v]) ∧
    ((CRB.commitWrite v s).1 = false → (CRB.commitWrite v s).2 = s) := by
  obtain ⟨cap2, wrLt, rdLt, endEq, aeEq, st2wr, pw, pr⟩ := h
  simp only [CRB.commitWrite]
  split_ifs with h0
  · exact ⟨⟨cap2, wrLt, rdLt, endEq, aeEq, st2wr, pw, pr⟩,
      fun hc => by simp at hc, fun _ => rfl⟩
  · have hpw := pw h0
    have hlen : (s.slots.set s.acquiredWritePtr v).length = s.slots.length := by
      simp
    refine ⟨by constructor <;> dsimp only <;> omega, ?_, fun hc => by simp at hc⟩
    intro _
    dsimp only
    rcases hpw with ⟨hp, hlt, hd | hd⟩ | ⟨hp, hweq, hrd2, hrdle⟩
    · -- pending write at write_ptr_, writer and reader in state 1
      simp only [CRB.queue]
      rw [hp]
      have c1 : s.readPtr ≤ s.writePtr + 1 := by omega
      rw [if_pos c1, if_pos hd, sliceIdx_snoc _ _ _ hd,
          sliceIdx_set_outside _ _ _ _ _ (Or.inr (le_refl s.writePtr)),
          List.getElem?_set_eq_of_lt v wrLt]
      rfl
    · -- pending write at write_ptr_, state 2 (reader still ahead)
      simp only [CRB.queue]
      rw [hp]
      have c1 : ¬ s.readPtr ≤ s.writePtr + 1 := by omega
      have c2 : ¬ s.readPtr ≤ s.writePtr := by omega
      rw [if_neg c1, if_neg c2]
      have he : s.acquiredEndPtr = s.endPtr := by omega
      rw [he, sliceIdx_set_outside _ _ _ _ _ (Or.inl (show s.writePtr < s.readPtr by omega)),
          sliceIdx_snoc _ _ _ (Nat.zero_le s.writePtr),
          sliceIdx_set_outside _ _ _ _ _ (Or.inr (le_refl s.writePtr)),
          List.getElem?_set_eq_of_lt v wrLt, List.append_assoc]
      rfl
    · -- pending wrap-around write at slot 0
      simp only [CRB.queue]
      rw [hp]
      have c1 : ¬ s.readPtr ≤ 0 + 1 := by omega
      rw [if_neg c1, if_pos hrdle]
      have he : s.acquiredEndPtr = s.writePtr := by omega
      rw [he, sliceIdx_set_outside _ _ _ _ _ (Or.inl (show 0 < s.readPtr by omega)),
          sliceIdx_snoc _ _ _ (le_refl 0), sliceIdx_self,
          List.getElem?_set_eq_of_lt v (show 0 < s.slots.length by omega),
          List.nil_append]
      rfl

lemma inv_acquireRead {s : CRBState α} (h : CRBInv s) :
    CRBInv (CRB.acquireRead s).2 ∧
    CRB.queue (CRB.acquireRead s).2 = CRB.queue s ∧
    ((CRB.acquireRead s).1 = true →
      CRB.readView (CRB.acquireRead s).2 = (CRB.queue s).head?) := by
  obtain ⟨cap2, wrLt, rdLt, endEq, aeEq, st2wr, pw, pr⟩ := h
  simp only [CRB.acquireRead]
  split_ifs with h1 h2
  · -- state 1: read up to write_ptr_
    refine ⟨by constructor <;> dsimp only <;> omega, rfl, ?_⟩
    intro ht
    have hne := of_decide_eq_true ht
    dsimp only at hne
    rw [CRB.readView]
    dsimp only
    rw [CRB.queue, if_pos h1, sliceIdx_head? _ _ _ (by omega)]
  · -- state 2, reader strictly below end_ptr_
    refine ⟨by constructor <;> dsimp only <;> omega, rfl, ?_⟩
    intro _
    rw [CRB.readView]
    dsimp only
    rw [CRB.queue, if_neg h1,
        List.head?_append_of_ne_nil _ (sliceIdx_ne_nil _ _ _ h2 rdLt),
        sliceIdx_head? _ _ _ h2]
  · -- state 2, reader at end_ptr_: wrap to slot 0
    refine ⟨by constructor <;> dsimp only <;> omega, rfl, ?_⟩
    intro ht
    have hne := of_decide_eq_true ht
    dsimp only at hne
    rw [CRB.readView]
    dsimp only
    rw [CRB.queue, if_neg h1]
    have hre : s.readPtr = s.endPtr := by omega
    rw [hre, sliceIdx_self, List.nil_append,
        sliceIdx_head? _ _ _ (show 0 < s.writePtr by omega)]

lemma inv_commitRead {s : CRBState α} (h : CRBInv s) :
    CRBInv (CRB.commitRead s).2 ∧
    ((CRB.commitRead s).1 = true →
      CRB.queue (CRB.commitRead s).2 = (CRB.queue s).tail) ∧
    ((CRB.commitRead s).1 = false → (CRB.commitRead s).2 = s) := by
  obtain ⟨cap2, wrLt, rdLt, endEq, aeEq, st2wr, pw, pr⟩ := h
  simp only [CRB.commitRead]
  split_ifs with h0
  · exact ⟨⟨cap2, wrLt, rdLt, endEq, aeEq, st2wr, pw, pr⟩,
      fun hc => by simp at hc, fun _ => rfl⟩
  · have hpr := pr h0
    refine ⟨by constructor <;> dsimp only <;> omega, ?_, fun hc => by simp at hc⟩
    intro _
    dsimp only
    rcases hpr with ⟨hp, hc1 | ⟨hc2a, hc2b⟩⟩ | ⟨hp, hrq, hw1, hw2⟩
    · -- pending read at read_ptr_, state 1: pop the head of rd..wr
      simp only [CRB.queue]
      rw [hp]
      have c1 : s.readPtr + 1 ≤ s.writePtr := by omega
      rw [if_pos c1, if_pos (Nat.le_of_lt hc1), sliceIdx_cons _ _ _ hc1,
          List.getElem?_eq_getElem rdLt]
      rfl
    · -- pending read at read_ptr_, state 2: pop the head of rd..end
      simp only [CRB.queue]
      rw [hp]
      have c1 : ¬ s.readPtr + 1 ≤ s.writePtr := by omega
      have c2 : ¬ s.readPtr ≤ s.writePtr := by omega
      rw [if_neg c1, if_neg c2,
          sliceIdx_cons _ _ _ (show s.readPtr < s.endPtr by omega),
          List.getElem?_eq_getElem rdLt]
      rfl
    · -- pending wrap-around read at slot 0: pop the head of 0..wr
      simp only [CRB.queue]
      rw [hp]
      have c1 : 0 + 1 ≤ s.writePtr := by omega
      have c2 : ¬ s.readPtr ≤ s.writePtr := by omega
      rw [if_pos c1, if_neg c2]
      have hre : s.readPtr = s.endPtr := by omega
      rw [hre, sliceIdx_self, List.nil_append, sliceIdx_cons _ _ _ hw1,
          List.getElem?_eq_getElem (show 0 < s.slots.length by omega)]
      rfl

/-- The states a `CRB` (with at least one chunk) can reach: a fresh buffer
followed by any interleaved sequence of the four protocol calls.  In the
single-producer/single-consumer setting every concurrent execution is one
such interleaving. -/
inductive CRBReach {α : Type} : CRBState α → Prop where
  | init (d : α) (n : Nat) (hn : 1 ≤ n) : CRBReach (CRB.init d n)
  | acquireWrite {s : CRBState α} : CRBReach s → CRBReach (CRB.acquireWrite s).2
  | commitWrite {s : CRBState α} (v : α) : CRBReach s → CRBReach (CRB.commitWrite v s).2
  | acquireRead {s : CRBState α} : CRBReach s → CRBReach (CRB.acquireRead s).2
  | commitRead {s : CRBState α} : CRBReach s → CRBReach (CRB.commitRead s).2

lemma inv_of_reach {s : CRBState α} (h : CRBReach s) : CRBInv s := by
  induction h with
  | init d n hn => exact inv_init d n hn
  | acquireWrite _ ih => exact (inv_acquireWrite ih).1
  | commitWrite v _ ih => exact (inv_commitWrite v ih).1
  | acquireRead _ ih => exact (inv_acquireRead ih).1
  | commitRead _ ih => exact (inv_commitRead ih).1

/-- C4: for every interleaved sequence of `acquireWrite`/`commitWrite` and
`acquireRead`/`commitRead` calls on a CRB (every reachable state `s`), the
committed-but-unread chunks form the queue `CRB.queue s`, and the protocol
maintains it as a strict FIFO: a successful `acquireRead` hands the reader
exactly the slot of the oldest committed-but-unread write — the head of the
queue, carrying the chunk buffer together with its metadata record —
without changing the queue, a successful `commitWrite v` appends `v` at the
tail, a successful `commitRead` pops the head, and `acquireWrite` leaves
the queue untouched.  Hence the reader observes chunks, with their
accompanying metadata, in exactly the order the writer committed them. -/
theorem crb_fifo {α : Type} (s : CRBState α) (hs : CRBReach s) :
    ((CRB.acquireRead s).1 = true →
      CRB.readView (CRB.acquireRead s).2 = (CRB.queue s).head?) ∧
    CRB.queue (CRB.acquireRead s).2 = CRB.queue s ∧
    (∀ v : α, (CRB.commitWrite v s).1 = true →
      CRB.queue (CRB.commitWrite v s).2 = CRB.queue s ++ [v]) ∧
    ((CRB.commitRead s).1 = true →
      CRB.queue (CRB.commitRead s).2 = (CRB.queue s).tail) ∧
    CRB.queue (CRB.acquireWrite s).2 = CRB.queue s := by
  have hinv := inv_of_reach hs
  exact ⟨(inv_acquireRead hinv).2.2, (inv_acquireRead hinv).2.1,
    fun v => (inv_commitWrite v hinv).2.1, (inv_commitRead hinv).2.1,
    (inv_acquireWrite hinv).2⟩

/-- The CRB state after one committed write of `42` into a fresh
`CRB(512, 3)`. -/
def crb42 : CRBState Nat :=
  (CRB.commitWrite 42 (CRB.acquireWrite (CRB.init 0 3)).2).2

/-- Witness for C4: after the writer commits one chunk `42` into a fresh
`CRB(512, 3)`, `acquireRead` succeeds and — by `crb_fifo` at that reachable
state — hands the reader the head of the queue, which evaluates to the
committed chunk `42`. -/
theorem crb_fifo_witness :
    (CRB.acquireRead crb42).1 = true ∧
    CRB.readView (CRB.acquireRead crb42).2 = some 42 ∧
    CRB.queue crb42 = [42] := by
  have h := crb_fifo crb42
    (CRBReach.commitWrite 42 (CRBReach.acquireWrite (CRBReach.init 0 3 (by decide))))
  refine ⟨by decide, ?_, by decide⟩
  rw [h.1 (by decide)]
  decide
